import Mathlib

/-!
# matrixMultiplication: a shallow embedding of `pt-mm.c` and `mm.c`

Conventions of the embedding.

* A `double *` buffer is a map from element index to value (`Buf`).  Values are
  exact integers: the development is about the exact-arithmetic content of the
  kernels, not about `float`/`double` rounding.
* The C `int`s that hold dimensions, worker ids and partition sizes are natural
  numbers without an upper bound (signed overflow of `x * z` is outside the
  model).  The countdown `en` and the round counter `sTimes` are integers,
  because the code decrements them and tests them against `0`.
* Namespace `ptmm` embeds `src/pt-mm.c`, namespace `mm` embeds `src/mm.c`.
-/

/-- A `double *` buffer, indexed by element. -/
abbrev Buf := Nat → Int

/-- The store `m[i] = v`. -/
def write (m : Buf) (i : Nat) (v : Int) : Buf := fun j => if j = i then v else m j

/-- The macro `idx(x,y,col)  ((x)*(col) + (y))` of both source files. -/
def idx (x y col : Nat) : Nat := x * col + y

/-- The innermost loop of both files,
`float tval = 0; for (kx = 0; kx < y; kx++) tval += L[idx(ix,kx,y)] * R[idx(kx,jx,z)];`
accumulating in increasing `kx`. -/
def tval (L R : Buf) (y z ix jx : Nat) : Int :=
  (List.range y).foldl (fun t kx => t + L (idx ix kx y) * R (idx kx jx z)) 0

namespace ptmm

/-- The state of one worker's pass over its cells: the result buffer, the
countdown `en`, the cells `(ix, jx)` it has stored so far (oldest first), and
whether the pass left the loops through the `en == 0` branch. -/
structure Pass where
  out : Buf
  en : Int
  cells : List (Nat × Nat)
  hit : Bool

/-- The column loop `for (; jx < z; jx++) { ...; C[idx(ix,jx,z)] = tval; en--; if (en == 0) ... }`
(pt-mm.c lines 92-104 and 137-156).  The first argument is the number of
iterations the loop header still allows, `z - jx`. -/
def colLoop (L R : Buf) (y z ix : Nat) : Nat → Nat → Pass → Pass
  | 0, _, p => p
  | n + 1, jx, p =>
    let p1 : Pass :=
      { out := write p.out (idx ix jx z) (tval L R y z ix jx)
        en := p.en - 1
        cells := p.cells ++ [(ix, jx)]
        hit := false }
    if p1.en = 0 then { p1 with hit := true } else colLoop L R y z ix n (jx + 1) p1

/-- The row loop `for (; ix < x; ix++) { <column loop>; jx = 0; }`
(pt-mm.c lines 90-106 and 135-158).  The first argument is the number of
iterations the loop header still allows, `x - ix`. -/
def rowLoop (L R : Buf) (y z : Nat) : Nat → Nat → Nat → Pass → Pass
  | 0, _, _, p => p
  | n + 1, ix, jx, p =>
    let p1 := colLoop L R y z ix (z - jx) jx p
    if p1.hit then p1 else rowLoop L R y z n (ix + 1) 0 p1

/-- The global variables of pt-mm.c. -/
structure Globals where
  A : Buf
  B : Buf
  C : Buf
  x : Nat
  y : Nat
  z : Nat
  sTimes : Int
  part : Nat
  num_threads : Nat

/-- The local `sn` of `matmul`: `int sn = threadn * part;` (line 74). -/
def matmul_sn (g : Globals) (threadn : Nat) : Nat := threadn * g.part

/-- The local `en` of `matmul` as first assigned (lines 78-84). -/
def matmul_en (g : Globals) (threadn : Nat) : Int :=
  if g.num_threads = threadn + 1 then ((g.x * g.z : Nat) : Int) - (matmul_sn g threadn : Nat)
  else (g.part : Int)

/-- The start routine `matmul` (lines 71-108): the pass of worker `threadn`
over `C`, starting from `div(sn, x)`.  (`main` calls the engine with `x > 0`
only; a division by `x == 0` is outside the model.) -/
def matmul (g : Globals) (threadn : Nat) : Pass :=
  let sn := matmul_sn g threadn
  let ix := sn / g.x
  let jx := sn % g.x
  rowLoop g.A g.B g.y g.z (g.x - ix) ix jx
    { out := g.C, en := matmul_en g threadn, cells := [], hit := false }

/-- Lines 168-174 of `MatMul`: clamp `num_threads` to the number of result
cells and set `part`.  `none` is the division by zero of `num_threads == 0`. -/
def MatMul_setup (g : Globals) : Option Globals :=
  let n := if g.num_threads > g.x * g.z then g.x * g.z else g.num_threads
  if n = 0 then none
  else some { g with num_threads := n, part := (g.x * g.z) / n }

/-- The workers `matmul(0), ..., matmul(n-1)` run to completion one after the
other, in the order of their creation. -/
def runWorkers (g : Globals) : Nat → Globals
  | 0 => g
  | n + 1 =>
    let g1 := runWorkers g n
    { g1 with C := (matmul g1 n).out }

/-- The orchestrator `MatMul` (lines 162-189): set-up, creation of the workers
and join.  Thread creation is taken to succeed. -/
def MatMul (g : Globals) : Option Globals :=
  (MatMul_setup g).map fun g1 => runWorkers g1 g1.num_threads

/-- The local `sn` of `matsquare`: `int sn = threadn * part;` (line 119). -/
def matsquare_sn (g : Globals) (threadn : Nat) : Nat := threadn * g.part

/-- The local `en` of `matsquare` as first assigned (lines 123-129). -/
def matsquare_en (g : Globals) (threadn : Nat) : Int :=
  if g.num_threads = threadn + 1 then ((g.x * g.x : Nat) : Int) - (matsquare_sn g threadn : Nat)
  else (g.part : Int)

/-- Lines 119-158 of one activation of `matsquare`: the pass of worker
`threadn` over `B`, reading both operands from `A`, up to the point where the
loops are left (`hit` tells whether that was the `en == 0` branch, which leads
to the barrier, or the end of the loops, which leads to line 159). -/
def matsquare_pass (g : Globals) (threadn : Nat) : Pass :=
  let sn := matsquare_sn g threadn
  let ix := sn / g.x
  let jx := sn % g.x
  rowLoop g.A g.A g.x g.x (g.x - ix) ix jx
    { out := g.B, en := matsquare_en g threadn, cells := [], hit := false }

/-- Where a worker thread of the power engine stands. -/
inductive Pc where
  /-- About to execute an activation of `matsquare` from its first line. -/
  | entry
  /-- Blocked inside `pthread_barrier_wait` (line 148). -/
  | blocked
  /-- Returned from `pthread_barrier_wait`, about to test `sTimes > 0` (line 149). -/
  | released
  /-- Terminated by `pthread_exit`. -/
  | exited
  deriving DecidableEq, Repr

/-- One worker thread: its control point, the number of activations of
`matsquare` it has entered (its recursion depth, which is also the number of
rounds it has begun), and the values of `sTimes` it has read at line 149,
oldest first. -/
structure Thread where
  pc : Pc
  depth : Nat
  seen : List Int

/-- A store into `B` by the power engine: the worker, the round of that worker
(its recursion depth at the time), and the cell `(ix, jx)`. -/
structure Store where
  threadn : Nat
  round : Nat
  ix : Nat
  jx : Nat
  deriving DecidableEq, Repr

/-- The power engine while its workers run: the globals, the barrier (the
count it was initialised with and the number of threads blocked in it), the
threads by worker id (ids below `g.num_threads` are the threads created), the
number of executions of `sTimes--`, and the stores into `B` so far. -/
structure Sys where
  g : Globals
  count : Nat
  arrived : Nat
  threads : Nat → Thread
  decs : Nat
  log : List Store

/-- Lines 197-213 of `MatSquare`: the barrier is initialised with the requested
`num_threads`, then `num_threads` is clamped and `part` is set, then the
workers are created.  `none` is the division by zero of `num_threads == 0`.
Thread creation is taken to succeed. -/
def MatSquare_setup (g : Globals) : Option Sys :=
  let count := g.num_threads
  let n := if g.num_threads > g.x * g.x then g.x * g.x else g.num_threads
  if n = 0 then none
  else some
    { g := { g with num_threads := n, part := (g.x * g.x) / n }
      count := count
      arrived := 0
      threads := fun _ => { pc := Pc.entry, depth := 0, seen := [] }
      decs := 0
      log := [] }

/-- One scheduling step of worker `tid`, which runs the start routine
`matsquare` (lines 111-160); `none` when that worker cannot run (no such
thread, blocked in the barrier, or exited).

* At `entry` the worker runs `matsquare` from line 112 to the barrier: worker 0
  decrements `sTimes`, the pass stores its cells, and on `en == 0` the worker
  enters the barrier; the arrival that completes the barrier count releases every
  blocked thread.  A pass that ends without `en == 0` reaches line 159.
* At `released` the worker tests `sTimes > 0` and either calls `matsquare`
  again or exits. -/
def step (s : Sys) (tid : Nat) : Option Sys :=
  if tid < s.g.num_threads then
    match (s.threads tid).pc with
    | Pc.entry =>
      let g1 : Globals := if tid = 0 then { s.g with sTimes := s.g.sTimes - 1 } else s.g
      let decs := if tid = 0 then s.decs + 1 else s.decs
      let p := matsquare_pass g1 tid
      let d := (s.threads tid).depth + 1
      let log := s.log ++ p.cells.map fun c => { threadn := tid, round := d, ix := c.1, jx := c.2 }
      let me : Thread := { s.threads tid with depth := d }
      if p.hit then
        if s.arrived + 1 = s.count then
          some
            { s with
              g := { g1 with B := p.out }
              arrived := 0
              threads := fun i =>
                if i = tid then { me with pc := Pc.released }
                else if (s.threads i).pc = Pc.blocked then { s.threads i with pc := Pc.released }
                else s.threads i
              decs := decs
              log := log }
        else
          some
            { s with
              g := { g1 with B := p.out }
              arrived := s.arrived + 1
              threads := fun i => if i = tid then { me with pc := Pc.blocked } else s.threads i
              decs := decs
              log := log }
      else
        some
          { s with
            g := { g1 with B := p.out }
            threads := fun i => if i = tid then { me with pc := Pc.exited } else s.threads i
            decs := decs
            log := log }
    | Pc.released =>
      let me : Thread :=
        { s.threads tid with
          pc := if s.g.sTimes > 0 then Pc.entry else Pc.exited
          seen := (s.threads tid).seen ++ [s.g.sTimes] }
      some { s with threads := fun i => if i = tid then me else s.threads i }
    | Pc.blocked => none
    | Pc.exited => none
  else none

/-- The run of a schedule, a list of worker ids, one step each. -/
def run (s : Sys) : List Nat → Option Sys
  | [] => some s
  | t :: ts => (step s t).bind fun s1 => run s1 ts

/-- All created threads have exited: the joins of `MatSquare` (lines 215-217)
return. -/
def joined (s : Sys) : Bool :=
  (List.range s.g.num_threads).all fun i => decide ((s.threads i).pc = Pc.exited)

/-- The orchestrator `MatSquare` (lines 191-220) under a schedule of its
workers: the globals on return, or `none` when the set-up fails, the schedule
asks a thread to run that cannot, or a thread has not exited at its end. -/
def MatSquare (g : Globals) (sched : List Nat) : Option Globals :=
  (MatSquare_setup g).bind fun s0 =>
    (run s0 sched).bind fun s1 => if joined s1 then some s1.g else none

/-- A lock-step schedule of `r` rounds for `n` workers: in every round each
worker runs its pass (in any order), the barrier releases, and each worker
tests `sTimes` (in any order) before any worker starts the next round. -/
inductive LockStep (n : Nat) : Nat → List Nat → Prop where
  | done : LockStep n 0 []
  | round (r : Nat) (p q rest : List Nat) :
      p.Perm (List.range n) → q.Perm (List.range n) → LockStep n r rest →
      LockStep n (r + 1) (p ++ q ++ rest)

/-- Linear index `k` belongs to the partition `[sn, sn + en)` of worker `i` of
`matmul`. -/
def owns (g : Globals) (i k : Nat) : Prop :=
  (matmul_sn g i : Int) ≤ k ∧ (k : Int) < matmul_sn g i + matmul_en g i

/-- Linear index `k` belongs to the partition `[sn, sn + en)` of worker `i` of
`matsquare`. -/
def ownsSq (g : Globals) (i k : Nat) : Prop :=
  (matsquare_sn g i : Int) ≤ k ∧ (k : Int) < matsquare_sn g i + matsquare_en g i

instance (g : Globals) (i k : Nat) : Decidable (owns g i k) := by
  unfold owns; exact inferInstance

instance (g : Globals) (i k : Nat) : Decidable (ownsSq g i k) := by
  unfold ownsSq; exact inferInstance

/-- Number of stores into cell `(i, j)` of `B` made in round `k`. -/
def storesInto (s : Sys) (k i j : Nat) : Nat :=
  s.log.countP fun e => decide (e.round = k ∧ e.ix = i ∧ e.jx = j)

end ptmm

/-- The row-major cells with linear indices `k0, ..., k0 + c - 1` of a matrix
with `z` columns. -/
def cellsFrom (z k0 c : Nat) : List (Nat × Nat) :=
  (List.range' k0 c).map fun k => (k / z, k % z)

/-- The countdown `en` of worker `i` of `matsquare` as a natural number. -/
def ptmm.sqCount (g : ptmm.Globals) (i : Nat) : Nat :=
  if g.num_threads = i + 1 then g.x * g.x - i * g.part else g.part

/-- The value the squaring kernel stores at linear index `m` of `B`. -/
def ptmm.sqVal (g : ptmm.Globals) (m : Nat) : Int :=
  tval g.A g.A g.x g.x (m / g.x) (m % g.x)

/-- A configuration as the set-up of `MatSquare` leaves it when no more
threads are requested than there are cells: a worker count and a `part` of at
least one, ranges that fit the matrix, and a barrier for exactly the workers. -/
structure ptmm.WF (s : ptmm.Sys) : Prop where
  nt_pos : 1 ≤ s.g.num_threads
  part_pos : 1 ≤ s.g.part
  fits : s.g.num_threads * s.g.part ≤ s.g.x * s.g.x
  count_eq : s.count = s.g.num_threads

/-- The state `s` of a round begun in `s0` (every worker at `entry`, at depth
`d`) after exactly the workers in `S` have run their pass. -/
structure ptmm.Working (s0 : ptmm.Sys) (d : Nat) (S : List Nat) (s : ptmm.Sys) : Prop where
  A : s.g.A = s0.g.A
  x : s.g.x = s0.g.x
  part : s.g.part = s0.g.part
  nt : s.g.num_threads = s0.g.num_threads
  count : s.count = s0.count
  arrived : s.arrived = if S.length = s0.g.num_threads then 0 else S.length
  inS : ∀ i, i ∈ S →
    (s.threads i).pc =
      (if S.length = s0.g.num_threads then ptmm.Pc.released else ptmm.Pc.blocked) ∧
    (s.threads i).depth = d + 1
  notInS : ∀ i, i < s0.g.num_threads → i ∉ S → s.threads i = s0.threads i
  sTimes : s.g.sTimes = s0.g.sTimes - (if 0 ∈ S then 1 else 0)
  decs : s.decs = s0.decs + (if 0 ∈ S then 1 else 0)
  cellB : ∀ m, s.g.B m = ptmm.sqVal s0.g m ∨ s.g.B m = s0.g.B m
  written : ∀ i m, i ∈ S → ptmm.ownsSq s0.g i m → s.g.B m = ptmm.sqVal s0.g m
  log : ∀ k i j, j < s0.g.x →
    ptmm.storesInto s k i j = ptmm.storesInto s0 k i j +
      (if k = d + 1 then S.countP (fun t => decide (ptmm.ownsSq s0.g t (i * s0.g.x + j)))
       else 0)

/-- The state `s` after the barrier released in `s1` and exactly the workers in
`S` have tested `sTimes`. -/
structure ptmm.Testing (s1 : ptmm.Sys) (S : List Nat) (s : ptmm.Sys) : Prop where
  g : s.g = s1.g
  count : s.count = s1.count
  arrived : s.arrived = s1.arrived
  decs : s.decs = s1.decs
  log : s.log = s1.log
  inS : ∀ i, i ∈ S →
    (s.threads i).pc = (if s1.g.sTimes > 0 then ptmm.Pc.entry else ptmm.Pc.exited) ∧
    (s.threads i).depth = (s1.threads i).depth
  notInS : ∀ i, i ∉ S → s.threads i = s1.threads i

/-- The state between rounds: `d` rounds are complete and every worker stands
at `pc` with recursion depth `d`; `B` holds the square of the input `A0` once a
round is complete, and every cell has one store in each complete round. -/
structure ptmm.AtRound (A0 : Buf) (d : Nat) (pc : ptmm.Pc) (s : ptmm.Sys) : Prop where
  wf : ptmm.WF s
  A : s.g.A = A0
  threads : ∀ i, i < s.g.num_threads → (s.threads i).pc = pc ∧ (s.threads i).depth = d
  arrived : s.arrived = 0
  decs : s.decs = d
  B : 1 ≤ d → ∀ m, m < s.g.x * s.g.x → s.g.B m = ptmm.sqVal s.g m
  log : ∀ k i j, i < s.g.x → j < s.g.x →
    ptmm.storesInto s k i j = if 1 ≤ k ∧ k ≤ d then 1 else 0

/-- The cells `(ix, jx), ..., (ix, jx + c - 1)` of row `ix`. -/
def rowCells (ix jx c : Nat) : List (Nat × Nat) :=
  (List.range' jx c).map fun j => (ix, j)

/-- The stores `out[idx(ix,jx,z)] = tval` for a list of cells, in order. -/
def writeCells (L R : Buf) (y z : Nat) (cells : List (Nat × Nat)) (out : Buf) : Buf :=
  cells.foldl (fun o c => write o (idx c.1 c.2 z) (tval L R y z c.1 c.2)) out

/-- The `n`-by-`n` matrix stored row-major in a buffer. -/
def toMat (n : Nat) (b : Buf) : Matrix (Fin n) (Fin n) Int :=
  Matrix.of fun i j => b (idx i.val j.val n)

/-- A buffer holding the given values, zero elsewhere. -/
def ofList (l : List Int) : Buf := fun i => l.getD i 0

namespace mm

/-- The heap of mm.c: the `double` buffer behind each pointer.  Distinct
pointers are distinct allocations. -/
structure Heap where
  buf : Nat → Buf

/-- The store `P[i] = v` through pointer `P`. -/
def store (h : Heap) (P i : Nat) (v : Int) : Heap :=
  { buf := fun Q => if Q = P then write (h.buf Q) i v else h.buf Q }

/-- The function `MatMul (A, B, C, x, y, z)` of mm.c (lines 29-45), on
pointers: every cell reads the operands as they are in memory at that
moment. -/
def MatMul (h : Heap) (A B C : Nat) (x y z : Nat) : Heap :=
  (List.range x).foldl
    (fun h1 ix =>
      (List.range z).foldl
        (fun h2 jx => store h2 C (idx ix jx z) (tval (h2.buf A) (h2.buf B) y z ix jx)) h1)
    h

/-- The call `memcpy(B, T, sizeof(double)*n)`. -/
def memcpy (h : Heap) (B T n : Nat) : Heap :=
  { buf := fun Q => if Q = B then (fun m => if m < n then h.buf T m else h.buf B m) else h.buf Q }

/-- The loop `for (i = 1; i < times; i += 2) { ... }` of `MatSquare` (lines
61-67), from the given `i`.  The first argument bounds the number of
iterations; `none` when it does not suffice. -/
def squareLoop (B T x times : Nat) : Nat → Nat → Heap → Option Heap
  | 0, i, h => if i < times then none else some h
  | fuel + 1, i, h =>
    if i < times then
      let h1 := MatMul h B B T x x x
      if i = times - 1 then squareLoop B T x times fuel (i + 2) (memcpy h1 B T (x * x))
      else squareLoop B T x times fuel (i + 2) (MatMul h1 T T B x x x)
    else some h

/-- The function `MatSquare (A, B, x, times)` of mm.c (lines 53-70).  `T` is
the pointer returned by `malloc`; the heap holds its uninitialised content. -/
def MatSquare (h : Heap) (A B T : Nat) (x times : Nat) : Option Heap :=
  let h1 := MatMul h A A B x x x
  if times > 1 then squareLoop B T x times times 1 h1 else some h1

end mm

/-- One option delivered by `getopt`, with `atoi(optarg)` for the options that
take a value; `bad` is the answer `'?'`. -/
inductive Opt where
  | d
  | r
  | s (v : Int)
  | x (v : Int)
  | y (v : Int)
  | z (v : Int)
  | n (v : Int)
  | T
  | bad

/-- The option variables of `main`. -/
structure Vars where
  debug : Bool
  square : Bool
  useRand : Bool
  timecomp : Bool
  x : Int
  y : Int
  z : Int
  sTimes : Int
  num_threads : Int

/-- How `main` goes on after its options are read. -/
inductive Outcome where
  /-- The call `usage(argv[0])`: the message on stderr and `exit(1)`. -/
  | usage
  /-- The `square` branch: `A` and `B` are allocated and `MatSquare` is called. -/
  | power (v : Vars)
  /-- The other branch: `A`, `B`, `C` are allocated and `MatMul` is called. -/
  | product (v : Vars)

/-- The exit status of the process where the outcome fixes it. -/
def Outcome.exitStatus : Outcome → Option Nat
  | Outcome.usage => some 1
  | _ => none

/-- The option check of both `main`s (pt-mm.c lines 288-296, mm.c lines
171-179): `true` when `usage` is not called. -/
def verify (v : Vars) : Bool :=
  if v.square then
    if v.y ≠ 0 ∨ v.z ≠ 0 ∨ v.x ≤ 0 ∨ v.sTimes < 1 then false else true
  else if v.x ≤ 0 ∨ v.y ≤ 0 ∨ v.z ≤ 0 then false
  else true

/-- The rest of both `main`s after the `getopt` loop: the option check, then
the branch on `square`. -/
def dispatch (v : Vars) : Outcome :=
  if verify v then (if v.square then Outcome.power v else Outcome.product v)
  else Outcome.usage

namespace ptmm

/-- The initial values of the option variables of pt-mm.c. -/
def initVars : Vars :=
  { debug := false, square := false, useRand := false, timecomp := false,
    x := 0, y := 0, z := 0, sTimes := 0, num_threads := 8 }

/-- The `getopt` loop of pt-mm.c (lines 253-285); `none` is the call of
`usage` on an unknown option. -/
def getopts : Vars → List Opt → Option Vars
  | v, [] => some v
  | v, Opt.d :: os => getopts { v with debug := true } os
  | v, Opt.r :: os => getopts { v with useRand := true } os
  | v, Opt.s t :: os => getopts { v with sTimes := t, square := true } os
  | v, Opt.x t :: os => getopts { v with x := t } os
  | v, Opt.y t :: os => getopts { v with y := t } os
  | v, Opt.z t :: os => getopts { v with z := t } os
  | v, Opt.n t :: os => getopts { v with num_threads := t } os
  | v, Opt.T :: os => getopts { v with timecomp := true } os
  | _, Opt.bad :: _ => none

/-- The function `main` of pt-mm.c up to the call of the engine. -/
def main (os : List Opt) : Outcome :=
  match getopts initVars os with
  | none => Outcome.usage
  | some v => dispatch v

end ptmm

namespace mm

/-- The initial values of the option variables of mm.c (which has no
`num_threads`; the field is not used). -/
def initVars : Vars :=
  { debug := false, square := false, useRand := false, timecomp := false,
    x := 0, y := 0, z := 0, sTimes := 0, num_threads := 0 }

/-- The `getopt` loop of mm.c (lines 139-168), whose option string has no
`n`; `none` is the call of `usage` on an unknown option. -/
def getopts : Vars → List Opt → Option Vars
  | v, [] => some v
  | v, Opt.d :: os => getopts { v with debug := true } os
  | v, Opt.r :: os => getopts { v with useRand := true } os
  | v, Opt.s t :: os => getopts { v with sTimes := t, square := true } os
  | v, Opt.x t :: os => getopts { v with x := t } os
  | v, Opt.y t :: os => getopts { v with y := t } os
  | v, Opt.z t :: os => getopts { v with z := t } os
  | _, Opt.n _ :: _ => none
  | v, Opt.T :: os => getopts { v with timecomp := true } os
  | _, Opt.bad :: _ => none

/-- The function `main` of mm.c up to the call of the engine. -/
def main (os : List Opt) : Outcome :=
  match getopts initVars os with
  | none => Outcome.usage
  | some v => dispatch v

end mm

/-- A 2-by-1 times 1-by-3 product request with two threads and a zeroed `C`. -/
def ptmm.ex23 : ptmm.Globals :=
  { A := ofList [1, 1], B := ofList [1, 1, 1], C := fun _ => 0, x := 2, y := 1, z := 3,
    sTimes := 0, part := 0, num_threads := 2 }

/-- A 3-by-1 times 1-by-2 product request with two threads and a zeroed `C`. -/
def ptmm.ex32 : ptmm.Globals :=
  { A := ofList [1, 1, 1], B := ofList [1, 1], C := fun _ => 0, x := 3, y := 1, z := 2,
    sTimes := 0, part := 0, num_threads := 2 }

/-- A 1-by-1 times 1-by-2 product request with the default eight threads. -/
def ptmm.ex12 : ptmm.Globals :=
  { A := ofList [3], B := ofList [4, 5], C := fun _ => 0, x := 1, y := 1, z := 2,
    sTimes := 0, part := 0, num_threads := 8 }

/-- The 1-by-1 matrix `[2]` with two rounds of squaring on one thread. -/
def ptmm.ex11 : ptmm.Globals :=
  { A := ofList [2], B := fun _ => 0, C := fun _ => 0, x := 1, y := 0, z := 0,
    sTimes := 2, part := 0, num_threads := 1 }

/-- A 2-by-2 matrix with two rounds of squaring on two threads. -/
def ptmm.ex22 : ptmm.Globals :=
  { A := ofList [1, 2, 3, 4], B := fun _ => 0, C := fun _ => 0, x := 2, y := 0, z := 0,
    sTimes := 2, part := 0, num_threads := 2 }

/-- A heap with the 1-by-1 matrix `[2]` behind pointer 0 and zeroes elsewhere. -/
def mm.heap11 : mm.Heap :=
  { buf := fun P => if P = 0 then ofList [2] else fun _ => 0 }

/-- The workers of the product engine run to completion one after the other
in the given order of worker ids. -/
def ptmm.runIn (g : ptmm.Globals) (order : List Nat) : ptmm.Globals :=
  order.foldl (fun g1 t => { g1 with C := (ptmm.matmul g1 t).out }) g

/-- The globals of pt-mm.c when `main` calls an engine: the option variables
`x`, `y`, `z`, `sTimes`, `num_threads` as read, and the buffers as allocated and
filled.  `none` stands for a negative `num_threads`, for which the array
`pthread_t ids[num_threads]` of both engines has no defined meaning. -/
def ptmm.engineGlobals (v : Vars) (A B C : Buf) : Option ptmm.Globals :=
  if v.num_threads < 0 then none
  else some
    { A := A, B := B, C := C, x := v.x.toNat, y := v.y.toNat, z := v.z.toNat,
      sTimes := v.sTimes, part := 0, num_threads := v.num_threads.toNat }

/-- The type `struct timeval`. -/
structure Timeval where
  tv_sec : Int
  tv_usec : Int

/-- The macro `timersub(a, b, result)` of `<sys/time.h>`: `result = a - b`,
with `tv_usec` brought back into `[0, 1000000)`. -/
def timersub (a b : Timeval) : Timeval :=
  let r : Timeval := { tv_sec := a.tv_sec - b.tv_sec, tv_usec := a.tv_usec - b.tv_usec }
  if r.tv_usec < 0 then { tv_sec := r.tv_sec - 1, tv_usec := r.tv_usec + 1000000 } else r

/-- Lines 356-357 of `main` of pt-mm.c,
`timersub(&start, &end, &result); clock_time = result.tv_sec;`, for the times
`start` and `stop` taken before and after the computation (the variable `end`
of the source). -/
def ptmm.clock_time (start stop : Timeval) : Int :=
  (timersub start stop).tv_sec

/-- A 1-by-1 squaring request with one round and the default eight threads. -/
def ptmm.ex11d : ptmm.Globals :=
  { A := ofList [2], B := fun _ => 0, C := fun _ => 0, x := 1, y := 0, z := 0,
    sTimes := 1, part := 0, num_threads := 8 }

/-- A 2-by-3 times 3-by-2 product request with one thread. -/
def ptmm.ex232 : ptmm.Globals :=
  { A := ofList [1, 2, 3, 4, 5, 6], B := ofList [1, 0, 0, 1, 1, 1], C := fun _ => 0,
    x := 2, y := 3, z := 2, sTimes := 0, part := 0, num_threads := 1 }

/-- A heap with the operands of `ptmm.ex232` behind pointers 0 and 1 and a
zeroed result buffer behind pointer 2. -/
def mm.heap232 : mm.Heap :=
  { buf := fun P =>
      if P = 0 then ofList [1, 2, 3, 4, 5, 6]
      else if P = 1 then ofList [1, 0, 0, 1, 1, 1]
      else fun _ => 0 }

/-! ## The work-division arithmetic -/

theorem part_pos (total n : Nat) (hn : 1 ≤ n) (hnt : n ≤ total) : 1 ≤ total / n :=
  (Nat.one_le_div_iff (by omega)).mpr hnt

theorem part_mul_le (total n : Nat) : n * (total / n) ≤ total := by
  rw [Nat.mul_comm]; exact Nat.div_mul_le_self total n

namespace ptmm

theorem MatMul_setup_eq (g : Globals) (ht : 1 ≤ g.x * g.z) (hn : 1 ≤ g.num_threads) :
    MatMul_setup g = some
      { g with num_threads := min g.num_threads (g.x * g.z),
               part := (g.x * g.z) / min g.num_threads (g.x * g.z) } := by
  unfold MatMul_setup
  by_cases h : g.num_threads > g.x * g.z
  · have hm : min g.num_threads (g.x * g.z) = g.x * g.z := by omega
    simp only [h, if_true, hm]
    rw [if_neg (by omega)]
  · have hm : min g.num_threads (g.x * g.z) = g.num_threads := by omega
    simp only [h, if_false, hm]
    rw [if_neg (by omega)]

/-- The partition of worker `i` in terms of the clamped worker count `n`,
`part` and the number of cells `total`. -/
theorem owns_iff (g : Globals) (i k : Nat) :
    owns g i k ↔
      i * g.part ≤ k ∧
        (if g.num_threads = i + 1 then k < g.x * g.z else k < i * g.part + g.part) := by
  unfold owns matmul_en matmul_sn
  split <;> constructor <;> intro h <;> constructor <;> omega

end ptmm

/-- Every linear index below `total` lies in the range of some worker: worker
`k / part`, or the last worker for the indices from `(n - 1) * part` on. -/
theorem owner_exists (total n part k : Nat) (hn : 1 ≤ n) (hp : 1 ≤ part) (hk : k < total) :
    ∃ i, i < n ∧ i * part ≤ k ∧ (if n = i + 1 then k < total else k < i * part + part) := by
  have hdm := Nat.div_add_mod k part
  have hml := Nat.mod_lt k (by omega : part > 0)
  by_cases h : k / part < n - 1
  · refine ⟨k / part, by omega, Nat.div_mul_le_self k part, ?_⟩
    rw [if_neg (by omega)]
    rw [Nat.mul_comm] at hdm
    omega
  · refine ⟨n - 1, by omega, ?_, ?_⟩
    · have h1 : n - 1 ≤ k / part := by omega
      exact (Nat.le_div_iff_mul_le (by omega)).mp h1
    · rw [if_pos (by omega)]; exact hk

/-- Two workers below `n` whose ranges share an index are the same worker. -/
theorem owner_unique (total n part k i j : Nat) (hi : i < n) (hj : j < n)
    (h1 : i * part ≤ k ∧ (if n = i + 1 then k < total else k < i * part + part))
    (h2 : j * part ≤ k ∧ (if n = j + 1 then k < total else k < j * part + part)) :
    i = j := by
  by_contra hne
  rcases Nat.lt_or_gt_of_ne hne with hlt | hgt
  · have h3 : (i + 1) * part ≤ j * part := Nat.mul_le_mul_right part (by omega)
    have h4 : (i + 1) * part = i * part + part := by ring
    rw [if_neg (by omega)] at h1
    omega
  · have h3 : (j + 1) * part ≤ i * part := Nat.mul_le_mul_right part (by omega)
    have h4 : (j + 1) * part = j * part + part := by ring
    rw [if_neg (by omega)] at h2
    omega

/-- A range of a worker below `n` ends at or before `total`. -/
theorem range_le_total (total n part i : Nat) (hi : i < n) (hle : n * part ≤ total) :
    i * part + part ≤ total := by
  have h3 : (i + 1) * part ≤ n * part := Nat.mul_le_mul_right part (by omega)
  have h4 : (i + 1) * part = i * part + part := by ring
  omega

namespace ptmm

/-- C2. Partition coverage of the work division of `matmul`/`MatMul`: for at
least one result cell and at least one requested thread, the set-up succeeds
with `n = min(num_threads, total)` workers and `part = total / n`; every range
`[sn_i, sn_i + en_i)` lies inside `[0, total)`, two different workers share no
index, and every index below `total` is in the range of some worker. -/
theorem partition_coverage (g : Globals) (ht : 1 ≤ g.x * g.z) (hn : 1 ≤ g.num_threads) :
    ∃ g1, MatMul_setup g = some g1 ∧
      g1.num_threads = min g.num_threads (g.x * g.z) ∧
      g1.part = (g.x * g.z) / g1.num_threads ∧
      (∀ i, i < g1.num_threads →
        matmul_sn g1 i = i * g1.part ∧
        matmul_en g1 i =
          (if i + 1 < g1.num_threads then (g1.part : Int)
           else ((g.x * g.z : Nat) : Int) - (matmul_sn g1 i : Nat))) ∧
      (∀ i k, i < g1.num_threads → owns g1 i k → k < g.x * g.z) ∧
      (∀ i j k, i < g1.num_threads → j < g1.num_threads → i ≠ j →
        ¬ (owns g1 i k ∧ owns g1 j k)) ∧
      (∀ k, k < g.x * g.z → ∃ i, i < g1.num_threads ∧ owns g1 i k) := by
  refine ⟨_, MatMul_setup_eq g ht hn, rfl, rfl, ?_, ?_, ?_, ?_⟩
  · intro i hi
    refine ⟨rfl, ?_⟩
    unfold matmul_en
    dsimp only at hi ⊢
    by_cases h : i + 1 < min g.num_threads (g.x * g.z)
    · rw [if_neg (by omega), if_pos h]
    · rw [if_pos (by omega), if_neg h]
  · intro i k hi ho
    rw [owns_iff] at ho
    dsimp only at hi ho
    have hle := part_mul_le (g.x * g.z) (min g.num_threads (g.x * g.z))
    have := range_le_total (g.x * g.z) _ _ i hi hle
    split at ho <;> omega
  · intro i j k hi hj hne ⟨h1, h2⟩
    rw [owns_iff] at h1 h2
    exact hne (owner_unique (g.x * g.z) _ _ k i j hi hj h1 h2)
  · intro k hk
    have hp := part_pos (g.x * g.z) (min g.num_threads (g.x * g.z)) (by omega) (by omega)
    obtain ⟨i, hi, h⟩ := owner_exists (g.x * g.z) (min g.num_threads (g.x * g.z)) _ k
      (by omega) hp hk
    exact ⟨i, hi, (owns_iff _ i k).mpr h⟩

end ptmm

/-! ## The cell loops -/

theorem writeCells_append (L R : Buf) (y z : Nat) (l1 l2 : List (Nat × Nat)) (out : Buf) :
    writeCells L R y z (l1 ++ l2) out = writeCells L R y z l2 (writeCells L R y z l1 out) := by
  unfold writeCells; rw [List.foldl_append]

theorem rowCells_succ (ix jx c : Nat) :
    rowCells ix jx (c + 1) = (ix, jx) :: rowCells ix (jx + 1) c := by
  unfold rowCells; rw [List.range'_succ]; rfl

theorem cellsFrom_succ (z k0 c : Nat) :
    cellsFrom z k0 (c + 1) = (k0 / z, k0 % z) :: cellsFrom z (k0 + 1) c := by
  unfold cellsFrom; rw [List.range'_succ]; rfl

theorem cellsFrom_add (z k0 a b : Nat) :
    cellsFrom z k0 (a + b) = cellsFrom z k0 a ++ cellsFrom z (k0 + a) b := by
  unfold cellsFrom; rw [← List.map_append, List.range'_append_1, Nat.add_comm b a]

theorem rowCells_eq_cellsFrom (z ix : Nat) :
    ∀ (c jx : Nat), jx + c ≤ z → rowCells ix jx c = cellsFrom z (ix * z + jx) c := by
  intro c
  induction c with
  | zero => intro jx _; rfl
  | succ c ih =>
    intro jx h
    have hz : 0 < z := by omega
    rw [rowCells_succ, cellsFrom_succ, ih (jx + 1) (by omega)]
    have h1 : (ix * z + jx) / z = ix := by
      rw [Nat.mul_comm, Nat.mul_add_div hz, Nat.div_eq_of_lt (by omega)]; rfl
    have h2 : (ix * z + jx) % z = jx := by
      rw [Nat.mul_comm, Nat.mul_add_mod]; exact Nat.mod_eq_of_lt (by omega)
    rw [h1, h2]; rfl

theorem writeCells_cellsFrom_apply (L R : Buf) (y z : Nat) (k0 : Nat) (out : Buf) :
    ∀ (c m : Nat), writeCells L R y z (cellsFrom z k0 c) out m =
      if k0 ≤ m ∧ m < k0 + c then tval L R y z (m / z) (m % z) else out m := by
  intro c
  induction c with
  | zero => intro m; rw [if_neg (by omega)]; rfl
  | succ c ih =>
    intro m
    rw [cellsFrom_add, writeCells_append]
    have h1 : cellsFrom z (k0 + c) 1 = [((k0 + c) / z, (k0 + c) % z)] := rfl
    rw [h1]
    show write (writeCells L R y z (cellsFrom z k0 c) out)
      (idx ((k0 + c) / z) ((k0 + c) % z) z) _ m = _
    have h2 : idx ((k0 + c) / z) ((k0 + c) % z) z = k0 + c := by
      unfold idx; exact Nat.div_add_mod' (k0 + c) z
    rw [h2]
    unfold write
    by_cases hm : m = k0 + c
    · rw [if_pos hm, if_pos (by omega), hm]
    · rw [if_neg hm, ih m]
      by_cases hr : k0 ≤ m ∧ m < k0 + c
      · rw [if_pos hr, if_pos (by omega)]
      · rw [if_neg hr, if_neg (by omega)]

namespace ptmm

theorem colLoop_exit (L R : Buf) (y z ix : Nat) :
    ∀ (c n jx : Nat) (p : Pass), c + 1 ≤ n → p.en = ((c + 1 : Nat) : Int) →
      colLoop L R y z ix n jx p =
        { out := writeCells L R y z (rowCells ix jx (c + 1)) p.out
          en := 0
          cells := p.cells ++ rowCells ix jx (c + 1)
          hit := true } := by
  intro c
  induction c with
  | zero =>
    intro n jx p hn hen
    obtain ⟨m, rfl⟩ : ∃ m, n = m + 1 := ⟨n - 1, by omega⟩
    simp only [colLoop]
    rw [if_pos (by rw [hen]; simp)]
    simp [rowCells, writeCells, hen]
  | succ c ih =>
    intro n jx p hn hen
    obtain ⟨m, rfl⟩ : ∃ m, n = m + 1 := ⟨n - 1, by omega⟩
    simp only [colLoop]
    rw [if_neg (by rw [hen]; push_cast; omega)]
    rw [ih m (jx + 1) _ (by omega) (by simp only [hen]; push_cast; omega)]
    rw [rowCells_succ ix jx (c + 1)]
    simp [writeCells]

theorem colLoop_pass (L R : Buf) (y z ix : Nat) :
    ∀ (n jx : Nat) (p : Pass), (n : Int) < p.en → p.hit = false →
      colLoop L R y z ix n jx p =
        { out := writeCells L R y z (rowCells ix jx n) p.out
          en := p.en - n
          cells := p.cells ++ rowCells ix jx n
          hit := false } := by
  intro n
  induction n with
  | zero =>
    intro jx p _ hh
    simp only [colLoop]
    cases p
    simp_all [rowCells, writeCells]
  | succ n ih =>
    intro jx p hen _
    simp only [colLoop]
    rw [if_neg (by push_cast at hen; omega)]
    rw [ih (jx + 1) _ (by push_cast at hen; simp only; omega) rfl]
    rw [rowCells_succ ix jx n]
    simp [writeCells]
    ring

/-- A pass that starts at cell `(ix, jx)` with a countdown of `c ≥ 1` cells that
fit into the remaining rows stores exactly the `c` cells that follow in
row-major order and leaves through the `en == 0` branch. -/
theorem rowLoop_cells (L R : Buf) (y z : Nat) :
    ∀ (rows ix jx c : Nat) (p : Pass), jx < z → 1 ≤ c →
      ix * z + jx + c ≤ (ix + rows) * z → p.en = (c : Int) → p.hit = false →
      rowLoop L R y z rows ix jx p =
        { out := writeCells L R y z (cellsFrom z (ix * z + jx) c) p.out
          en := 0
          cells := p.cells ++ cellsFrom z (ix * z + jx) c
          hit := true } := by
  intro rows
  induction rows with
  | zero =>
    intro ix jx c p _ hc hle _ _
    rw [Nat.add_zero] at hle
    omega
  | succ rows ih =>
    intro ix jx c p hjx hc hle hen hh
    simp only [rowLoop]
    by_cases hcn : c ≤ z - jx
    · obtain ⟨c1, rfl⟩ : ∃ c1, c = c1 + 1 := ⟨c - 1, by omega⟩
      rw [colLoop_exit L R y z ix c1 (z - jx) jx p hcn hen]
      simp only [if_true]
      rw [rowCells_eq_cellsFrom z ix (c1 + 1) jx (by omega)]
    · have hlt : ((z - jx : Nat) : Int) < p.en := by rw [hen]; omega
      rw [colLoop_pass L R y z ix (z - jx) jx p hlt hh]
      simp only [Bool.false_eq_true, if_false]
      have e1 : (ix + 1) * z = ix * z + z := by ring
      have e2 : (ix + 1 + rows) * z = (ix + (rows + 1)) * z := by ring
      rw [ih (ix + 1) 0 (c - (z - jx)) _ (by omega) (by omega) (by omega)
        (by simp only [hen]; omega) rfl]
      have e3 : (ix + 1) * z + 0 = ix * z + jx + (z - jx) := by omega
      have e4 : c = (z - jx) + (c - (z - jx)) := by omega
      simp only
      rw [rowCells_eq_cellsFrom z ix (z - jx) jx (by omega), e3]
      conv_rhs => rw [e4, cellsFrom_add, writeCells_append]
      rw [List.append_assoc]

/-- The pass of a worker whose range `[sn, sn + c)` is not empty and lies
inside the `x`-by-`z` result, started at `(sn / z, sn % z)`. -/
theorem rowLoop_from (L R : Buf) (x y z sn c : Nat) (out : Buf) (hc : 1 ≤ c)
    (hle : sn + c ≤ x * z) :
    rowLoop L R y z (x - sn / z) (sn / z) (sn % z)
        { out := out, en := (c : Int), cells := [], hit := false } =
      { out := writeCells L R y z (cellsFrom z sn c) out
        en := 0
        cells := cellsFrom z sn c
        hit := true } := by
  have hz : 0 < z := by
    rcases Nat.eq_zero_or_pos z with h | h
    · rw [h, Nat.mul_zero] at hle; omega
    · exact h
  have h1 : sn / z * z + sn % z = sn := Nat.div_add_mod' sn z
  have h2 : sn / z < x := by
    rw [Nat.div_lt_iff_lt_mul hz]; omega
  have h3 : sn / z + (x - sn / z) = x := by omega
  rw [rowLoop_cells L R y z (x - sn / z) (sn / z) (sn % z) c _ (Nat.mod_lt sn hz) hc
    (by rw [h1, h3]; exact hle) rfl rfl]
  simp only [h1, List.nil_append]

end ptmm

/-! ## The product engine on a result that is not square -/

namespace ptmm

/-- C1 (code defect). On the 2-by-3 result of `ex23` with two threads,
`MatMul` returns with `C[idx(1,0,3)]` still at its initial value `0`, while the
product has `1` in that cell: worker 1 starts at `div(3, x) = (1, 1)` instead
of `(1, 0)`. -/
theorem MatMul_nonsquare_cell_unwritten :
    ∃ g1, MatMul ex23 = some g1 ∧
      g1.C (idx 1 0 3) = 0 ∧
      (∑ k in Finset.range ex23.y, ex23.A (idx 1 k ex23.y) * ex23.B (idx k 0 ex23.z)) = 1 := by
  refine ⟨_, rfl, by decide, by decide⟩

/-- C3 (code defect). On the 2-by-3 result of `ex23` worker 1 has `sn = 3`,
`en = 3`, hence the row-major range of cells `(1,0), (1,1), (1,2)`, but it
stores only `(1,1)` and `(1,2)`; cell `(1,0)` is stored by no worker.  On the
3-by-2 result of `ex32` worker 1 has the range `(1,1), (2,0), (2,1)` but stores
`(1,0), (1,1), (2,0)`: cell `(1,0)` is stored by both workers and `(2,1)` by
none. -/
theorem matmul_nonsquare_cells :
    (∃ g1, MatMul_setup ex23 = some g1 ∧ g1.num_threads = 2 ∧
      matmul_sn g1 1 = 3 ∧ matmul_en g1 1 = 3 ∧
      cellsFrom g1.z 3 3 = [(1, 0), (1, 1), (1, 2)] ∧
      (matmul g1 1).cells = [(1, 1), (1, 2)] ∧
      (matmul g1 0).cells = [(0, 0), (0, 1), (0, 2)]) ∧
    (∃ g1, MatMul_setup ex32 = some g1 ∧ g1.num_threads = 2 ∧
      matmul_sn g1 1 = 3 ∧ matmul_en g1 1 = 3 ∧
      cellsFrom g1.z 3 3 = [(1, 1), (2, 0), (2, 1)] ∧
      (matmul g1 1).cells = [(1, 0), (1, 1), (2, 0)] ∧
      (matmul g1 0).cells = [(0, 0), (0, 1), (1, 0)]) := by
  constructor
  · refine ⟨_, rfl, by decide, by decide, by decide, by decide, by decide, by decide⟩
  · refine ⟨_, rfl, by decide, by decide, by decide, by decide, by decide, by decide⟩

end ptmm

/-! ## The clamp of the worker count -/

namespace ptmm

theorem MatSquare_setup_eq (g : Globals) (ht : 1 ≤ g.x * g.x) (hn : 1 ≤ g.num_threads) :
    MatSquare_setup g = some
      { g := { g with num_threads := min g.num_threads (g.x * g.x),
                      part := (g.x * g.x) / min g.num_threads (g.x * g.x) }
        count := g.num_threads
        arrived := 0
        threads := fun _ => { pc := Pc.entry, depth := 0, seen := [] }
        decs := 0
        log := [] } := by
  unfold MatSquare_setup
  by_cases h : g.num_threads > g.x * g.x
  · have hm : min g.num_threads (g.x * g.x) = g.x * g.x := by omega
    simp only [h, if_true, hm]
    rw [if_neg (by omega)]
  · have hm : min g.num_threads (g.x * g.x) = g.num_threads := by omega
    simp only [h, if_false, hm]
    rw [if_neg (by omega)]

/-- The countdown of a worker below `n` is at least one cell, and exactly one
cell when `part` is `1` and there are as many workers as cells. -/
theorem en_bounds (total n part i : Nat) (hi : i < n) (hp : 1 ≤ part)
    (hle : n * part ≤ total) :
    (1 : Int) ≤ (if n = i + 1 then ((total : Nat) : Int) - ((i * part : Nat) : Int)
      else (part : Int)) ∧
    (n = total → part = 1 →
      (if n = i + 1 then ((total : Nat) : Int) - ((i * part : Nat) : Int)
        else (part : Int)) = 1) := by
  have h := range_le_total total n part i hi hle
  constructor
  · split <;> omega
  · intro h1 h2
    subst h2
    rw [Nat.mul_one] at h ⊢
    split <;> omega

/-- C7. Idle-worker-free clamp: for at least one result cell and at least one
requested thread, `MatMul` and `MatSquare` use `min(num_threads, total)`
workers and every worker's countdown `en` starts at one cell or more; when more
threads are requested than there are cells, the worker count is the cell count,
`part` is `1` and every worker's `en` is exactly `1`. -/
theorem clamp_no_idle_worker (g : Globals) (hn : 1 ≤ g.num_threads) :
    (1 ≤ g.x * g.z →
      ∃ g1, MatMul_setup g = some g1 ∧
        g1.num_threads = min g.num_threads (g.x * g.z) ∧
        (∀ i, i < g1.num_threads → 1 ≤ matmul_en g1 i) ∧
        (g.x * g.z < g.num_threads →
          g1.num_threads = g.x * g.z ∧ g1.part = 1 ∧
          ∀ i, i < g1.num_threads → matmul_en g1 i = 1)) ∧
    (1 ≤ g.x * g.x →
      ∃ s0, MatSquare_setup g = some s0 ∧
        s0.g.num_threads = min g.num_threads (g.x * g.x) ∧
        (∀ i, i < s0.g.num_threads → 1 ≤ matsquare_en s0.g i) ∧
        (g.x * g.x < g.num_threads →
          s0.g.num_threads = g.x * g.x ∧ s0.g.part = 1 ∧
          ∀ i, i < s0.g.num_threads → matsquare_en s0.g i = 1)) := by
  constructor
  · intro ht
    have hp := part_pos (g.x * g.z) (min g.num_threads (g.x * g.z)) (by omega) (by omega)
    have hle := part_mul_le (g.x * g.z) (min g.num_threads (g.x * g.z))
    refine ⟨_, MatMul_setup_eq g ht hn, rfl, ?_, ?_⟩
    · intro i hi
      exact (en_bounds (g.x * g.z) _ _ i hi hp hle).1
    · intro hgt
      have hm : min g.num_threads (g.x * g.z) = g.x * g.z := by omega
      have h1 : g.x * g.z / min g.num_threads (g.x * g.z) = 1 := by
        rw [hm]; exact Nat.div_self (by omega)
      refine ⟨hm, h1, ?_⟩
      intro i hi
      exact (en_bounds (g.x * g.z) _ _ i hi hp hle).2 hm h1
  · intro ht
    have hp := part_pos (g.x * g.x) (min g.num_threads (g.x * g.x)) (by omega) (by omega)
    have hle := part_mul_le (g.x * g.x) (min g.num_threads (g.x * g.x))
    refine ⟨_, MatSquare_setup_eq g ht hn, rfl, ?_, ?_⟩
    · intro i hi
      exact (en_bounds (g.x * g.x) _ _ i hi hp hle).1
    · intro hgt
      have hm : min g.num_threads (g.x * g.x) = g.x * g.x := by omega
      have h1 : g.x * g.x / min g.num_threads (g.x * g.x) = 1 := by
        rw [hm]; exact Nat.div_self (by omega)
      refine ⟨hm, h1, ?_⟩
      intro i hi
      exact (en_bounds (g.x * g.x) _ _ i hi hp hle).2 hm h1

end ptmm

/-! ## The power engine: single steps -/

namespace ptmm

theorem matsquare_en_eq (g : Globals) (i : Nat) (hi : i < g.num_threads)
    (hle : g.num_threads * g.part ≤ g.x * g.x) :
    matsquare_en g i = (sqCount g i : Int) ∧ 
      (1 ≤ g.part → 1 ≤ sqCount g i) ∧ i * g.part + sqCount g i ≤ g.x * g.x := by
  have h := range_le_total (g.x * g.x) g.num_threads g.part i hi hle
  unfold matsquare_en sqCount matsquare_sn
  split
  · refine ⟨by omega, fun _ => by omega, by omega⟩
  · refine ⟨rfl, fun h1 => h1, h⟩

theorem ownsSq_iff (g : Globals) (i k : Nat) (hi : i < g.num_threads)
    (hle : g.num_threads * g.part ≤ g.x * g.x) :
    ownsSq g i k ↔ i * g.part ≤ k ∧ k < i * g.part + sqCount g i := by
  unfold ownsSq
  rw [(matsquare_en_eq g i hi hle).1]
  unfold matsquare_sn
  constructor <;> intro h <;> constructor <;> omega

theorem matsquare_pass_eq (g : Globals) (i : Nat) (hi : i < g.num_threads) (hp : 1 ≤ g.part)
    (hle : g.num_threads * g.part ≤ g.x * g.x) :
    matsquare_pass g i =
      { out := writeCells g.A g.A g.x g.x (cellsFrom g.x (i * g.part) (sqCount g i)) g.B
        en := 0
        cells := cellsFrom g.x (i * g.part) (sqCount g i)
        hit := true } := by
  obtain ⟨h1, h2, h3⟩ := matsquare_en_eq g i hi hle
  unfold matsquare_pass
  simp only [h1, matsquare_sn]
  exact rowLoop_from g.A g.A g.x g.x g.x (i * g.part) (sqCount g i) g.B (h2 hp) h3

theorem step_entry (s : Sys) (t : Nat) (ht : t < s.g.num_threads)
    (hpc : (s.threads t).pc = Pc.entry) (hp : 1 ≤ s.g.part)
    (hle : s.g.num_threads * s.g.part ≤ s.g.x * s.g.x) :
    ∃ s1, step s t = some s1 ∧
      s1.g.A = s.g.A ∧ s1.g.x = s.g.x ∧ s1.g.part = s.g.part ∧
      s1.g.num_threads = s.g.num_threads ∧ s1.count = s.count ∧
      s1.g.sTimes = (if t = 0 then s.g.sTimes - 1 else s.g.sTimes) ∧
      s1.decs = (if t = 0 then s.decs + 1 else s.decs) ∧
      s1.g.B = writeCells s.g.A s.g.A s.g.x s.g.x
        (cellsFrom s.g.x (t * s.g.part) (sqCount s.g t)) s.g.B ∧
      s1.log = s.log ++ (cellsFrom s.g.x (t * s.g.part) (sqCount s.g t)).map
        (fun c => { threadn := t, round := (s.threads t).depth + 1, ix := c.1, jx := c.2 }) ∧
      (s1.threads t).depth = (s.threads t).depth + 1 ∧
      (s1.threads t).seen = (s.threads t).seen ∧
      (s.arrived + 1 = s.count →
        s1.arrived = 0 ∧ (s1.threads t).pc = Pc.released ∧
        ∀ i, i ≠ t → s1.threads i =
          if (s.threads i).pc = Pc.blocked then { s.threads i with pc := Pc.released }
          else s.threads i) ∧
      (s.arrived + 1 ≠ s.count →
        s1.arrived = s.arrived + 1 ∧ (s1.threads t).pc = Pc.blocked ∧
        ∀ i, i ≠ t → s1.threads i = s.threads i) := by
  have hpass : ∀ g1 : Globals, g1.A = s.g.A → g1.B = s.g.B → g1.x = s.g.x →
      g1.part = s.g.part → g1.num_threads = s.g.num_threads →
      matsquare_pass g1 t =
        { out := writeCells s.g.A s.g.A s.g.x s.g.x
            (cellsFrom s.g.x (t * s.g.part) (sqCount s.g t)) s.g.B
          en := 0
          cells := cellsFrom s.g.x (t * s.g.part) (sqCount s.g t)
          hit := true } := by
    intro g1 hA hB hx hpt hn
    rw [matsquare_pass_eq g1 t (by omega) (by omega) (by rw [hn, hpt, hx]; exact hle)]
    simp only [sqCount, hA, hB, hx, hpt, hn]
  have hg := hpass (if t = 0 then { s.g with sTimes := s.g.sTimes - 1 } else s.g)
    (by split <;> rfl) (by split <;> rfl) (by split <;> rfl) (by split <;> rfl)
    (by split <;> rfl)
  unfold step
  rw [if_pos ht]
  simp only [hpc, hg, if_true]
  by_cases ha : s.arrived + 1 = s.count
  · rw [if_pos ha]
    refine ⟨_, rfl, ?_, ?_, ?_, ?_, rfl, ?_, rfl, rfl, rfl, ?_, ?_, ?_, ?_⟩
    · simp only; split <;> rfl
    · simp only; split <;> rfl
    · simp only; split <;> rfl
    · simp only; split <;> rfl
    · simp only; split <;> rfl
    · simp only [if_true]
    · simp only [if_true]
    · intro _
      refine ⟨rfl, by simp only [if_true], ?_⟩
      intro i hi
      simp only [if_neg hi]
    · intro h; exact absurd ha h
  · rw [if_neg ha]
    refine ⟨_, rfl, ?_, ?_, ?_, ?_, rfl, ?_, rfl, rfl, rfl, ?_, ?_, ?_, ?_⟩
    · simp only; split <;> rfl
    · simp only; split <;> rfl
    · simp only; split <;> rfl
    · simp only; split <;> rfl
    · simp only; split <;> rfl
    · simp only [if_true]
    · simp only [if_true]
    · intro h; exact absurd h ha
    · intro _
      refine ⟨rfl, by simp only [if_true], ?_⟩
      intro i hi
      simp only [if_neg hi]

theorem step_released (s : Sys) (t : Nat) (ht : t < s.g.num_threads)
    (hpc : (s.threads t).pc = Pc.released) :
    ∃ s1, step s t = some s1 ∧
      s1.g = s.g ∧ s1.count = s.count ∧ s1.arrived = s.arrived ∧ s1.decs = s.decs ∧
      s1.log = s.log ∧
      (s1.threads t).pc = (if s.g.sTimes > 0 then Pc.entry else Pc.exited) ∧
      (s1.threads t).depth = (s.threads t).depth ∧
      (s1.threads t).seen = (s.threads t).seen ++ [s.g.sTimes] ∧
      ∀ i, i ≠ t → s1.threads i = s.threads i := by
  unfold step
  rw [if_pos ht]
  simp only [hpc]
  refine ⟨_, rfl, rfl, rfl, rfl, rfl, rfl, ?_, ?_, ?_, ?_⟩
  · simp only [if_true]
  · simp only [if_true]
  · simp only [if_true]
  · intro i hi
    simp only [if_neg hi]

theorem run_append (s : Sys) (p q : List Nat) :
    run s (p ++ q) = (run s p).bind fun s1 => run s1 q := by
  induction p generalizing s with
  | nil => rfl
  | cons t p ih =>
    simp only [List.cons_append, run]
    cases step s t with
    | none => rfl
    | some s1 => exact ih s1

/-- The stores of one pass into a cell `(i, j)` with `j < x`, counted for round
`k`: one if the pass is of round `k` and the cell is in its range, else none. -/
theorem countP_pass (x t r k i j : Nat) (hj : j < x) :
    ∀ (c sn : Nat),
      ((cellsFrom x sn c).map
        (fun c => ({ threadn := t, round := r, ix := c.1, jx := c.2 } : Store))).countP
        (fun e => decide (e.round = k ∧ e.ix = i ∧ e.jx = j)) =
      if r = k ∧ sn ≤ i * x + j ∧ i * x + j < sn + c then 1 else 0 := by
  intro c
  induction c with
  | zero =>
    intro sn
    rw [if_neg (by omega)]; rfl
  | succ c ih =>
    intro sn
    rw [cellsFrom_succ, List.map_cons, List.countP_cons, ih (sn + 1)]
    have hx : 0 < x := by omega
    have key : (sn / x = i ∧ sn % x = j) ↔ sn = i * x + j := by
      rw [Nat.div_mod_unique hx]
      constructor
      · rintro ⟨h, _⟩; rw [← h]; ring
      · intro h; exact ⟨by rw [h]; ring, hj⟩
    simp only [decide_eq_true_eq, key]
    split_ifs <;> omega

end ptmm

/-! ## The power engine: one round in lock step -/

namespace ptmm

theorem working_step (s0 : Sys) (d : Nat) (wf : WF s0)
    (h0 : ∀ i, i < s0.g.num_threads → (s0.threads i).pc = Pc.entry ∧ (s0.threads i).depth = d)
    (S : List Nat) (s : Sys) (hW : Working s0 d S s) (t : Nat) (ht : t < s0.g.num_threads)
    (htS : t ∉ S) (hlen : S.length < s0.g.num_threads) :
    ∃ s1, step s t = some s1 ∧ Working s0 d (t :: S) s1 := by
  have hth : s.threads t = s0.threads t := hW.notInS t ht htS
  obtain ⟨s1, hstep, hA, hx, hpart, hnt, hcount, hsT, hdecs, hB, hlog, hdepth, _, hrel, hblk⟩ :=
    step_entry s t (by rw [hW.nt]; exact ht) (by rw [hth]; exact (h0 t ht).1)
      (by rw [hW.part]; exact wf.part_pos)
      (by rw [hW.nt, hW.part, hW.x]; exact wf.fits)
  have harr : s.arrived = S.length := by rw [hW.arrived, if_neg (by omega)]
  have hcnt : s.count = s0.g.num_threads := by rw [hW.count, wf.count_eq]
  have hsq : sqCount s.g t = sqCount s0.g t := by
    unfold sqCount; rw [hW.nt, hW.x, hW.part]
  have hBm : ∀ m, s1.g.B m =
      if t * s0.g.part ≤ m ∧ m < t * s0.g.part + sqCount s0.g t then sqVal s0.g m
      else s.g.B m := by
    intro m
    rw [hB, writeCells_cellsFrom_apply, hsq, hW.part, hW.A, hW.x]
    rfl
  have hown := fun m => ownsSq_iff s0.g t m ht wf.fits
  refine ⟨s1, hstep, ?_⟩
  constructor
  · exact hA.trans hW.A
  · exact hx.trans hW.x
  · exact hpart.trans hW.part
  · exact hnt.trans hW.nt
  · exact hcount.trans hW.count
  · rw [List.length_cons]
    by_cases hl : S.length + 1 = s0.g.num_threads
    · rw [if_pos hl]; exact (hrel (by omega)).1
    · rw [if_neg hl, (hblk (by omega)).1, harr]
  · intro i hi
    rw [List.length_cons]
    rcases List.mem_cons.mp hi with rfl | hiS
    · refine ⟨?_, by rw [hdepth, hth, (h0 i ht).2]⟩
      by_cases hl : S.length + 1 = s0.g.num_threads
      · rw [if_pos hl]; exact (hrel (by omega)).2.1
      · rw [if_neg hl]; exact (hblk (by omega)).2.1
    · have hne : i ≠ t := fun h => htS (h ▸ hiS)
      have hi1 := hW.inS i hiS
      rw [if_neg (by omega)] at hi1
      by_cases hl : S.length + 1 = s0.g.num_threads
      · rw [if_pos hl, (hrel (by omega)).2.2 i hne, if_pos hi1.1]
        exact ⟨rfl, hi1.2⟩
      · rw [if_neg hl, (hblk (by omega)).2.2 i hne]
        exact hi1
  · intro i hi hiS
    have hne : i ≠ t := fun h => hiS (h ▸ List.mem_cons_self _ _)
    have hiS1 : i ∉ S := fun h => hiS (List.mem_cons_of_mem _ h)
    have hi1 := hW.notInS i hi hiS1
    by_cases hl : S.length + 1 = s0.g.num_threads
    · rw [(hrel (by omega)).2.2 i hne, hi1, if_neg]
      rw [(h0 i hi).1]; decide
    · rw [(hblk (by omega)).2.2 i hne, hi1]
  · rw [hsT, hW.sTimes]
    by_cases h0t : t = 0
    · subst h0t
      rw [if_pos rfl, if_neg htS, if_pos (List.mem_cons_self _ _)]
      omega
    · rw [if_neg h0t]
      have : (0 ∈ t :: S) ↔ 0 ∈ S := by
        rw [List.mem_cons]
        constructor
        · rintro (h | h)
          · exact absurd h.symm h0t
          · exact h
        · exact Or.inr
      simp only [this]
  · rw [hdecs, hW.decs]
    by_cases h0t : t = 0
    · subst h0t
      rw [if_pos rfl, if_neg htS, if_pos (List.mem_cons_self _ _)]
    · rw [if_neg h0t]
      have : (0 ∈ t :: S) ↔ 0 ∈ S := by
        rw [List.mem_cons]
        constructor
        · rintro (h | h)
          · exact absurd h.symm h0t
          · exact h
        · exact Or.inr
      simp only [this]
  · intro m
    rw [hBm m]
    split
    · exact Or.inl rfl
    · exact hW.cellB m
  · intro i m hi ho
    rw [hBm m]
    rcases List.mem_cons.mp hi with rfl | hiS
    · rw [if_pos ((hown m).mp ho)]
    · split
      · rfl
      · exact hW.written i m hiS ho
  · intro k i j hj
    have h1 : storesInto s1 k i j = storesInto s k i j +
        (if d + 1 = k ∧ t * s0.g.part ≤ i * s0.g.x + j ∧
            i * s0.g.x + j < t * s0.g.part + sqCount s0.g t then 1 else 0) := by
      unfold storesInto
      rw [hlog, List.countP_append, countP_pass s.g.x t _ k i j (by rw [hW.x]; exact hj),
        hth, (h0 t ht).2, hsq, hW.part, hW.x]
    rw [h1, hW.log k i j hj, List.countP_cons]
    simp only [decide_eq_true_eq, hown]
    split_ifs <;> omega

theorem working_init (s0 : Sys) (d : Nat) (ha : s0.arrived = 0) : Working s0 d [] s0 := by
  constructor
  · rfl
  · rfl
  · rfl
  · rfl
  · rfl
  · by_cases h : ([] : List Nat).length = s0.g.num_threads
    · rw [if_pos h]; exact ha
    · rw [if_neg h]; exact ha
  · intro i hi; exact absurd hi (List.not_mem_nil i)
  · intro i _ _; rfl
  · simp
  · simp
  · intro m; exact Or.inr rfl
  · intro i m hi; exact absurd hi (List.not_mem_nil i)
  · intro k i j _; simp

theorem working_run (s0 : Sys) (d : Nat) (wf : WF s0)
    (h0 : ∀ i, i < s0.g.num_threads → (s0.threads i).pc = Pc.entry ∧ (s0.threads i).depth = d) :
    ∀ (todo S : List Nat) (s : Sys), Working s0 d S s → (todo ++ S).Nodup →
      (∀ i, i ∈ todo → i < s0.g.num_threads) → S.length + todo.length = s0.g.num_threads →
      ∃ s1, run s todo = some s1 ∧ Working s0 d (todo.reverse ++ S) s1 := by
  intro todo
  induction todo with
  | nil =>
    intro S s hW _ _ _
    exact ⟨s, rfl, hW⟩
  | cons t todo ih =>
    intro S s hW hnd hlt hlen
    rw [List.length_cons] at hlen
    have hnd1 : (todo ++ t :: S).Nodup := (List.perm_middle.nodup_iff).mpr hnd
    have htS : t ∉ S := by
      intro h
      have := (List.nodup_cons.mp hnd).1
      exact this (List.mem_append_right _ h)
    obtain ⟨s1, hstep, hW1⟩ :=
      working_step s0 d wf h0 S s hW t (hlt t (List.mem_cons_self _ _)) htS (by omega)
    obtain ⟨s2, hrun, hW2⟩ := ih (t :: S) s1 hW1 hnd1
      (fun i hi => hlt i (List.mem_cons_of_mem _ hi)) (by rw [List.length_cons]; omega)
    refine ⟨s2, ?_, ?_⟩
    · simp only [run, hstep, Option.bind]
      exact hrun
    · rw [List.reverse_cons, List.append_assoc]
      exact hW2

theorem testing_step (s1 : Sys)
    (h1 : ∀ i, i < s1.g.num_threads → (s1.threads i).pc = Pc.released)
    (S : List Nat) (s : Sys) (hT : Testing s1 S s) (t : Nat) (ht : t < s1.g.num_threads)
    (htS : t ∉ S) :
    ∃ s2, step s t = some s2 ∧ Testing s1 (t :: S) s2 := by
  have hth : s.threads t = s1.threads t := hT.notInS t htS
  obtain ⟨s2, hstep, hg, hcount, harr, hdecs, hlog, hpc, hdepth, _, hoth⟩ :=
    step_released s t (by rw [hT.g]; exact ht) (by rw [hth]; exact h1 t ht)
  refine ⟨s2, hstep, ?_⟩
  constructor
  · exact hg.trans hT.g
  · exact hcount.trans hT.count
  · exact harr.trans hT.arrived
  · exact hdecs.trans hT.decs
  · exact hlog.trans hT.log
  · intro i hi
    rcases List.mem_cons.mp hi with rfl | hiS
    · rw [hpc, hdepth, hth, hT.g]
      exact ⟨rfl, rfl⟩
    · have hne : i ≠ t := fun h => htS (h ▸ hiS)
      rw [hoth i hne]
      exact hT.inS i hiS
  · intro i hiS
    have hne : i ≠ t := fun h => hiS (h ▸ List.mem_cons_self _ _)
    rw [hoth i hne]
    exact hT.notInS i (fun h => hiS (List.mem_cons_of_mem _ h))

theorem testing_init (s1 : Sys) : Testing s1 [] s1 := by
  constructor
  · rfl
  · rfl
  · rfl
  · rfl
  · rfl
  · intro i hi; exact absurd hi (List.not_mem_nil i)
  · intro i _; rfl

theorem testing_run (s1 : Sys)
    (h1 : ∀ i, i < s1.g.num_threads → (s1.threads i).pc = Pc.released) :
    ∀ (todo S : List Nat) (s : Sys), Testing s1 S s → (todo ++ S).Nodup →
      (∀ i, i ∈ todo → i < s1.g.num_threads) →
      ∃ s2, run s todo = some s2 ∧ Testing s1 (todo.reverse ++ S) s2 := by
  intro todo
  induction todo with
  | nil =>
    intro S s hT _ _
    exact ⟨s, rfl, hT⟩
  | cons t todo ih =>
    intro S s hT hnd hlt
    have hnd1 : (todo ++ t :: S).Nodup := (List.perm_middle.nodup_iff).mpr hnd
    have htS : t ∉ S := by
      intro h
      have := (List.nodup_cons.mp hnd).1
      exact this (List.mem_append_right _ h)
    obtain ⟨s2, hstep, hT1⟩ :=
      testing_step s1 h1 S s hT t (hlt t (List.mem_cons_self _ _)) htS
    obtain ⟨s3, hrun, hT2⟩ := ih (t :: S) s2 hT1 hnd1
      (fun i hi => hlt i (List.mem_cons_of_mem _ hi))
    refine ⟨s3, ?_, ?_⟩
    · simp only [run, hstep, Option.bind]
      exact hrun
    · rw [List.reverse_cons, List.append_assoc]
      exact hT2

end ptmm

theorem countP_range_eq (i0 : Nat) :
    ∀ n, (List.range n).countP (fun t => decide (t = i0)) = if i0 < n then 1 else 0 := by
  intro n
  induction n with
  | zero => rfl
  | succ n ih =>
    rw [List.range_succ, List.countP_append, ih]
    simp only [List.countP_cons, List.countP_nil, decide_eq_true_eq]
    split_ifs <;> omega

theorem cell_lt (x i j : Nat) (hi : i < x) (hj : j < x) : i * x + j < x * x := by
  have h1 : (i + 1) * x ≤ x * x := Nat.mul_le_mul_right x (by omega)
  have h2 : (i + 1) * x = i * x + x := by ring
  omega

namespace ptmm

/-- Among the workers `0, ..., n - 1` exactly one owns a given cell index. -/
theorem countP_owner (g : Globals) (hn : 1 ≤ g.num_threads) (hp : 1 ≤ g.part)
    (hle : g.num_threads * g.part ≤ g.x * g.x) (m : Nat) (hm : m < g.x * g.x) :
    (List.range g.num_threads).countP (fun t => decide (ownsSq g t m)) = 1 := by
  obtain ⟨i0, hi0, ho⟩ := owner_exists (g.x * g.x) g.num_threads g.part m hn hp hm
  have hcongr : ∀ t ∈ List.range g.num_threads,
      (decide (ownsSq g t m) = true ↔ decide (t = i0) = true) := by
    intro t ht
    have ht1 : t < g.num_threads := List.mem_range.mp ht
    rw [decide_eq_true_eq, decide_eq_true_eq, ownsSq_iff g t m ht1 hle]
    have hr := range_le_total (g.x * g.x) g.num_threads g.part t ht1 hle
    have hiff : (t * g.part ≤ m ∧ m < t * g.part + sqCount g t) ↔
        (t * g.part ≤ m ∧
          (if g.num_threads = t + 1 then m < g.x * g.x else m < t * g.part + g.part)) := by
      unfold sqCount
      by_cases hl : g.num_threads = t + 1
      · rw [if_pos hl, if_pos hl]; omega
      · rw [if_neg hl, if_neg hl]
    rw [hiff]
    constructor
    · intro h
      exact owner_unique (g.x * g.x) g.num_threads g.part m t i0 ht1 hi0 h ho
    · rintro rfl
      exact ho
  rw [List.countP_congr hcongr, countP_range_eq, if_pos hi0]

/-- One round in lock step: from a state between rounds, the passes of all
workers (in any order) followed by the tests of all workers (in any order)
lead to the next state between rounds, with `sTimes` one less; the workers
stand at `entry` again when `sTimes` is still positive and have exited
otherwise. -/
theorem round_step (A0 : Buf) (d : Nat) (s : Sys) (hR : AtRound A0 d Pc.entry s)
    (p q : List Nat) (hp : p.Perm (List.range s.g.num_threads))
    (hq : q.Perm (List.range s.g.num_threads)) :
    ∃ s2, run s (p ++ q) = some s2 ∧
      s2.g.sTimes = s.g.sTimes - 1 ∧ s2.g.x = s.g.x ∧
      s2.g.num_threads = s.g.num_threads ∧
      AtRound A0 (d + 1) (if s.g.sTimes - 1 > 0 then Pc.entry else Pc.exited) s2 := by
  have wf := hR.wf
  have hpn : p.Nodup := hp.nodup_iff.mpr (List.nodup_range _)
  have hqn : q.Nodup := hq.nodup_iff.mpr (List.nodup_range _)
  have hpm : ∀ i, i ∈ p ↔ i < s.g.num_threads := fun i => by
    rw [hp.mem_iff, List.mem_range]
  have hqm : ∀ i, i ∈ q ↔ i < s.g.num_threads := fun i => by
    rw [hq.mem_iff, List.mem_range]
  have hpl : p.length = s.g.num_threads := by rw [hp.length_eq, List.length_range]
  obtain ⟨s1, hrun1, hW⟩ := working_run s d wf hR.threads p [] s
    (working_init s d hR.arrived) (by rw [List.append_nil]; exact hpn)
    (fun i hi => (hpm i).mp hi) (by rw [List.length_nil, hpl]; omega)
  rw [List.append_nil] at hW
  have hSl : p.reverse.length = s.g.num_threads := by rw [List.length_reverse, hpl]
  have hSm : ∀ i, i < s.g.num_threads → i ∈ p.reverse := fun i hi =>
    List.mem_reverse.mpr ((hpm i).mpr hi)
  have h1 : ∀ i, i < s1.g.num_threads → (s1.threads i).pc = Pc.released := by
    intro i hi
    rw [hW.nt] at hi
    have := (hW.inS i (hSm i hi)).1
    rw [if_pos hSl] at this
    exact this
  obtain ⟨s2, hrun2, hT⟩ := testing_run s1 h1 q [] s1 (testing_init s1)
    (by rw [List.append_nil]; exact hqn)
    (fun i hi => by rw [hW.nt]; exact (hqm i).mp hi)
  rw [List.append_nil] at hT
  have h0S : 0 ∈ p.reverse := hSm 0 wf.nt_pos
  have hsT : s1.g.sTimes = s.g.sTimes - 1 := by
    rw [hW.sTimes, if_pos h0S]
  have hsq : ∀ m, sqVal s2.g m = sqVal s.g m := by
    intro m; unfold sqVal; rw [hT.g, hW.A, hW.x]
  refine ⟨s2, ?_, ?_, ?_, ?_, ?_⟩
  · rw [run_append, hrun1]; exact hrun2
  · rw [hT.g, hsT]
  · rw [hT.g, hW.x]
  · rw [hT.g, hW.nt]
  · constructor
    · constructor
      · rw [hT.g, hW.nt]; exact wf.nt_pos
      · rw [hT.g, hW.part]; exact wf.part_pos
      · rw [hT.g, hW.nt, hW.part, hW.x]; exact wf.fits
      · rw [hT.count, hW.count, hT.g, hW.nt]; exact wf.count_eq
    · rw [hT.g, hW.A]; exact hR.A
    · intro i hi
      rw [hT.g, hW.nt] at hi
      have hi2 := hT.inS i (List.mem_reverse.mpr ((hqm i).mpr hi))
      rw [hi2.1, hi2.2, (hW.inS i (hSm i hi)).2, hsT]
      exact ⟨rfl, rfl⟩
    · rw [hT.arrived, hW.arrived, if_pos hSl]
    · rw [hT.decs, hW.decs, if_pos h0S, hR.decs]
    · intro _ m hm
      rw [hT.g, hW.x] at hm
      obtain ⟨i, hi, ho⟩ := owner_exists (s.g.x * s.g.x) s.g.num_threads s.g.part m
        wf.nt_pos wf.part_pos hm
      have hown : ownsSq s.g i m := by
        rw [ownsSq_iff s.g i m hi wf.fits]
        refine ⟨ho.1, ?_⟩
        have h2 := ho.2
        have hr := range_le_total (s.g.x * s.g.x) s.g.num_threads s.g.part i hi wf.fits
        unfold sqCount
        by_cases hl : s.g.num_threads = i + 1
        · rw [if_pos hl] at h2 ⊢; omega
        · rw [if_neg hl] at h2 ⊢; exact h2
      rw [hsq m]
      have := hW.written i m (hSm i hi) hown
      rw [hT.g]
      exact this
    · intro k i j hi hj
      rw [hT.g, hW.x] at hi hj
      have hlog : storesInto s2 k i j = storesInto s1 k i j := by
        unfold storesInto; rw [hT.log]
      rw [hlog, hW.log k i j hj, hR.log k i j hi hj]
      have hc : p.reverse.countP (fun t => decide (ownsSq s.g t (i * s.g.x + j))) = 1 := by
        rw [((List.reverse_perm p).trans hp).countP_eq]
        exact countP_owner s.g wf.nt_pos wf.part_pos wf.fits _ (cell_lt s.g.x i j hi hj)
      rw [hc]
      split_ifs <;> omega

/-- A run in lock step: `r ≥ 1` rounds from a state between rounds with
`sTimes = r` end with every worker exited at depth `d + r` and `sTimes = 0`. -/
theorem lockstep_run (A0 : Buf) (n : Nat) :
    ∀ (r : Nat) (sched : List Nat), LockStep n r sched →
      ∀ (d : Nat) (s : Sys), AtRound A0 d Pc.entry s → s.g.num_threads = n →
        s.g.sTimes = (r : Int) → 1 ≤ r →
        ∃ s1, run s sched = some s1 ∧ s1.g.sTimes = 0 ∧ s1.g.x = s.g.x ∧
          s1.g.num_threads = n ∧ AtRound A0 (d + r) Pc.exited s1 := by
  intro r sched h
  induction h with
  | done => intro d s _ _ _ hr; omega
  | round r p q rest hp hq hrest ih =>
    intro d s hR hn hs _
    obtain ⟨s2, hrun, hsT, hx, hnt, hR2⟩ :=
      round_step A0 d s hR p q (by rw [hn]; exact hp) (by rw [hn]; exact hq)
    have hs2 : s2.g.sTimes = (r : Int) := by rw [hsT, hs]; push_cast; omega
    rw [hs] at hR2
    rcases Nat.eq_zero_or_pos r with h0 | hpos
    · subst h0
      cases hrest
      rw [if_neg (by simp)] at hR2
      refine ⟨s2, by rw [List.append_nil]; exact hrun, hs2, hx, by rw [hnt, hn], hR2⟩
    · rw [if_pos (by push_cast; omega)] at hR2
      obtain ⟨s3, hrun3, h3s, h3x, h3n, hR3⟩ := ih (d + 1) s2 hR2 (by rw [hnt, hn]) hs2 hpos
      refine ⟨s3, ?_, h3s, by rw [h3x, hx], h3n, ?_⟩
      · rw [run_append, hrun]; exact hrun3
      · have : d + (r + 1) = d + 1 + r := by omega
        rw [this]; exact hR3

end ptmm

/-! ## The power engine in lock step -/

theorem foldl_add_eq_sum (f : Nat → Int) :
    ∀ n, (List.range n).foldl (fun t kx => t + f kx) 0 = ∑ k in Finset.range n, f k := by
  intro n
  induction n with
  | zero => rfl
  | succ n ih =>
    rw [List.range_succ, List.foldl_append, ih, Finset.sum_range_succ]
    rfl

theorem tval_eq_sum (L R : Buf) (y z ix jx : Nat) :
    tval L R y z ix jx = ∑ k in Finset.range y, L (idx ix k y) * R (idx k jx z) :=
  foldl_add_eq_sum (fun k => L (idx ix k y) * R (idx k jx z)) y

theorem idx_div_mod (x i j : Nat) (hj : j < x) : idx i j x / x = i ∧ idx i j x % x = j := by
  unfold idx
  have hx : 0 < x := by omega
  constructor
  · rw [Nat.mul_comm, Nat.mul_add_div hx, Nat.div_eq_of_lt hj]; rfl
  · rw [Nat.mul_comm, Nat.mul_add_mod]; exact Nat.mod_eq_of_lt hj

namespace ptmm

theorem setup_atRound (g : Globals) (hx : 1 ≤ g.x) (hn : 1 ≤ g.num_threads)
    (hle : g.num_threads ≤ g.x * g.x) :
    ∃ s0, MatSquare_setup g = some s0 ∧ s0.g.x = g.x ∧
      s0.g.num_threads = g.num_threads ∧ s0.g.sTimes = g.sTimes ∧
      AtRound g.A 0 Pc.entry s0 := by
  have ht : 1 ≤ g.x * g.x := Nat.mul_pos hx hx
  have hm : min g.num_threads (g.x * g.x) = g.num_threads := by omega
  refine ⟨_, MatSquare_setup_eq g ht hn, rfl, hm, rfl, ?_⟩
  constructor
  · constructor
    · show 1 ≤ min g.num_threads (g.x * g.x)
      omega
    · exact part_pos (g.x * g.x) _ (by omega) (by omega)
    · exact part_mul_le (g.x * g.x) _
    · exact hm.symm
  · rfl
  · intro i _; exact ⟨rfl, rfl⟩
  · rfl
  · rfl
  · intro h; omega
  · intro k i j _ _
    rw [if_neg (by omega)]; rfl

theorem step_exited (s : Sys) (t : Nat)
    (h : t < s.g.num_threads → (s.threads t).pc = Pc.exited) : step s t = none := by
  unfold step
  by_cases ht : t < s.g.num_threads
  · rw [if_pos ht]; simp only [h ht]
  · rw [if_neg ht]

theorem joined_of_exited (s : Sys)
    (h : ∀ i, i < s.g.num_threads → (s.threads i).pc = Pc.exited) : joined s = true := by
  unfold joined
  rw [List.all_eq_true]
  intro i hi
  rw [decide_eq_true_eq]
  exact h i (List.mem_range.mp hi)

/-- C6. Power round count: for an `x`-by-`x` matrix with `x ≥ 1`, a worker
count between `1` and `x * x` and `sTimes = r ≥ 1`, every lock-step schedule of
`r` rounds runs to the end; then every worker has exited at recursion depth
`r` (it has run exactly `r` passes), `sTimes--` has been executed `r` times
(once in each round, by worker 0), `sTimes` is `0`, no worker can take a
further step, and `MatSquare` returns. -/
theorem power_round_count (g : Globals) (r : Nat) (sched : List Nat) (hx : 1 ≤ g.x)
    (hn : 1 ≤ g.num_threads) (hle : g.num_threads ≤ g.x * g.x) (hr : 1 ≤ r)
    (hs : g.sTimes = (r : Int)) (hL : LockStep g.num_threads r sched) :
    ∃ s0 s1, MatSquare_setup g = some s0 ∧ run s0 sched = some s1 ∧
      (∀ i, i < g.num_threads →
        (s1.threads i).pc = Pc.exited ∧ (s1.threads i).depth = r) ∧
      s1.decs = r ∧ s1.g.sTimes = 0 ∧ (∀ t, step s1 t = none) ∧
      MatSquare g sched = some s1.g := by
  obtain ⟨s0, hset, _, h0n, h0s, hR0⟩ := setup_atRound g hx hn hle
  obtain ⟨s1, hrun, h1s, _, h1n, hR1⟩ :=
    lockstep_run g.A g.num_threads r sched hL 0 s0 hR0 h0n (by rw [h0s, hs]) hr
  rw [Nat.zero_add] at hR1
  have hex : ∀ i, i < s1.g.num_threads → (s1.threads i).pc = Pc.exited :=
    fun i hi => (hR1.threads i hi).1
  refine ⟨s0, s1, hset, hrun, ?_, hR1.decs, h1s, ?_, ?_⟩
  · intro i hi
    exact hR1.threads i (by rw [h1n]; exact hi)
  · intro t
    exact step_exited s1 t (hex t)
  · unfold MatSquare
    rw [hset, Option.bind, hrun, Option.bind, joined_of_exited s1 hex]
    rfl

/-- C5. Observed semantics of the threaded power engine: for an `x`-by-`x`
matrix with `x ≥ 1`, a worker count between `1` and `x * x` and
`sTimes = r ≥ 1`, every lock-step schedule of `r` rounds makes `MatSquare`
return with `A` unchanged and `B[i*x + j] = Σ_k A[i*x + k] * A[k*x + j]` for
the input `A`, whatever `r` and the worker count are; every cell of `B` has
exactly one store in each of the rounds `1, ..., r` and none in any other. -/
theorem power_squares_input (g : Globals) (r : Nat) (sched : List Nat) (hx : 1 ≤ g.x)
    (hn : 1 ≤ g.num_threads) (hle : g.num_threads ≤ g.x * g.x) (hr : 1 ≤ r)
    (hs : g.sTimes = (r : Int)) (hL : LockStep g.num_threads r sched) :
    ∃ s0 s1, MatSquare_setup g = some s0 ∧ run s0 sched = some s1 ∧
      MatSquare g sched = some s1.g ∧
      s1.g.A = g.A ∧
      (∀ i j, i < g.x → j < g.x →
        s1.g.B (idx i j g.x) =
          ∑ k in Finset.range g.x, g.A (idx i k g.x) * g.A (idx k j g.x)) ∧
      (∀ k i j, i < g.x → j < g.x →
        storesInto s1 k i j = if 1 ≤ k ∧ k ≤ r then 1 else 0) := by
  obtain ⟨s0, hset, h0x, h0n, h0s, hR0⟩ := setup_atRound g hx hn hle
  obtain ⟨s1, hrun, _, h1x, _, hR1⟩ :=
    lockstep_run g.A g.num_threads r sched hL 0 s0 hR0 h0n (by rw [h0s, hs]) hr
  rw [Nat.zero_add] at hR1
  have hxx : s1.g.x = g.x := h1x.trans h0x
  have hex : ∀ i, i < s1.g.num_threads → (s1.threads i).pc = Pc.exited :=
    fun i hi => (hR1.threads i hi).1
  refine ⟨s0, s1, hset, hrun, ?_, hR1.A, ?_, ?_⟩
  · unfold MatSquare
    rw [hset, Option.bind, hrun, Option.bind, joined_of_exited s1 hex]
    rfl
  · intro i j hi hj
    have hm : idx i j g.x < s1.g.x * s1.g.x := by
      rw [hxx]; exact cell_lt g.x i j hi hj
    rw [hR1.B hr _ hm]
    unfold sqVal
    rw [hxx, hR1.A, (idx_div_mod g.x i j hj).1, (idx_div_mod g.x i j hj).2, tval_eq_sum]
  · intro k i j hi hj
    exact hR1.log k i j (by rw [hxx]; exact hi) (by rw [hxx]; exact hj)

/-- C4 (code defect). With the 1-by-1 input `[2]`, one worker and two rounds in
lock step, `MatSquare` of pt-mm.c returns `B = [4]`, the square of the input,
while `A^(2^2)` is `[16]`, which is also what `MatSquare` of mm.c returns for
the same input. -/
theorem MatSquare_resquares_input :
    LockStep ex11.num_threads 2 [0, 0, 0, 0] ∧
      (MatSquare ex11 [0, 0, 0, 0]).map (fun g => g.B 0) = some 4 ∧
      (toMat 1 ex11.A ^ 2 ^ 2) 0 0 = 16 ∧
      (mm.MatSquare mm.heap11 0 1 2 1 2).map (fun h => h.buf 1 0) = some 16 := by
  refine ⟨?_, by decide, ?_, by decide⟩
  · exact LockStep.round 1 [0] [0] [0, 0] (List.Perm.refl _) (List.Perm.refl _)
      (LockStep.round 0 [0] [0] [] (List.Perm.refl _) (List.Perm.refl _) LockStep.done)
  · simp [pow_succ, Matrix.mul_apply, toMat, ex11, ofList, idx]

/-- C8 (code defect). With a 2-by-2 matrix, two workers and two rounds, the
schedule "worker 0 runs its pass, worker 1 runs its pass (the barrier releases),
worker 0 tests `sTimes` and runs its next pass, worker 1 tests `sTimes`" lets
worker 0 read `1` and worker 1 read `0` at the test after the first round:
worker 1 exits after one round while worker 0 is blocked in the barrier of the
second round for ever, and no worker can take a further step. -/
theorem matsquare_counter_race :
    ∃ s0 s1, MatSquare_setup ex22 = some s0 ∧ run s0 [0, 1, 0, 0, 1] = some s1 ∧
      s0.g.num_threads = 2 ∧ s0.count = 2 ∧
      (s1.threads 0).seen = [1] ∧ (s1.threads 1).seen = [0] ∧
      (s1.threads 0).pc = Pc.blocked ∧ (s1.threads 0).depth = 2 ∧
      (s1.threads 1).pc = Pc.exited ∧ (s1.threads 1).depth = 1 ∧
      (∀ t, step s1 t = none) ∧ MatSquare ex22 [0, 1, 0, 0, 1] = none := by
  refine ⟨_, _, rfl, rfl, by decide, by decide, by decide, by decide, by decide, by decide,
    by decide, by decide, ?_, rfl⟩
  intro t
  match t with
  | 0 => rfl
  | 1 => rfl
  | t + 2 =>
    unfold step
    rw [if_neg]
    show ¬ t + 2 < 2
    omega

end ptmm

/-! ## The option check of `main` -/

theorem dispatch_square (v : Vars) (h : v.square = true) :
    (dispatch v = Outcome.power v ↔ (v.y = 0 ∧ v.z = 0 ∧ 0 < v.x ∧ 1 ≤ v.sTimes)) ∧
    (dispatch v = Outcome.power v ∨ dispatch v = Outcome.usage) := by
  by_cases hc : v.y ≠ 0 ∨ v.z ≠ 0 ∨ v.x ≤ 0 ∨ v.sTimes < 1
  · have hd : dispatch v = Outcome.usage := by
      simp [dispatch, verify, h, hc]
    refine ⟨⟨fun h1 => ?_, fun h1 => ?_⟩, Or.inr hd⟩
    · rw [hd] at h1; cases h1
    · omega
  · have hd : dispatch v = Outcome.power v := by
      simp [dispatch, verify, h, hc]
    refine ⟨⟨fun _ => ?_, fun _ => hd⟩, Or.inl hd⟩
    omega

theorem dispatch_product (v : Vars) (h : v.square = false) :
    (dispatch v = Outcome.product v ↔ (0 < v.x ∧ 0 < v.y ∧ 0 < v.z)) ∧
    (dispatch v = Outcome.product v ∨ dispatch v = Outcome.usage) := by
  by_cases hc : v.x ≤ 0 ∨ v.y ≤ 0 ∨ v.z ≤ 0
  · have hd : dispatch v = Outcome.usage := by
      simp [dispatch, verify, h, hc]
    refine ⟨⟨fun h1 => ?_, fun h1 => ?_⟩, Or.inr hd⟩
    · rw [hd] at h1; cases h1
    · omega
  · have hd : dispatch v = Outcome.product v := by
      simp [dispatch, verify, h, hc]
    refine ⟨⟨fun _ => ?_, fun _ => hd⟩, Or.inl hd⟩
    omega

/-- What the option check lets through, for option variables `v` read without
an unknown option. -/
theorem dispatch_spec (v : Vars) :
    (v.square = true →
      (dispatch v = Outcome.power v ↔ (v.y = 0 ∧ v.z = 0 ∧ 0 < v.x ∧ 1 ≤ v.sTimes))) ∧
    (v.square = false →
      (dispatch v = Outcome.product v ↔ (0 < v.x ∧ 0 < v.y ∧ 0 < v.z))) ∧
    ((v.square = true ∧ dispatch v = Outcome.power v) ∨
      (v.square = false ∧ dispatch v = Outcome.product v) ∨
      dispatch v = Outcome.usage) ∧
    (∀ w, dispatch v = Outcome.power w →
      w = v ∧ v.square = true ∧ v.y = 0 ∧ v.z = 0 ∧ 0 < v.x ∧ 1 ≤ v.sTimes) ∧
    (∀ w, dispatch v = Outcome.product w →
      w = v ∧ v.square = false ∧ 0 < v.x ∧ 0 < v.y ∧ 0 < v.z) := by
  cases hsq : v.square with
  | true =>
    obtain ⟨h1, h2⟩ := dispatch_square v hsq
    refine ⟨fun _ => h1, fun h => Bool.noConfusion h, ?_, ?_, ?_⟩
    · rcases h2 with h | h
      · exact Or.inl ⟨rfl, h⟩
      · exact Or.inr (Or.inr h)
    · intro w hw
      rcases h2 with h | h
      · rw [h] at hw
        cases hw
        exact ⟨rfl, rfl, h1.mp h⟩
      · rw [h] at hw; cases hw
    · intro w hw
      rcases h2 with h | h <;> rw [h] at hw <;> cases hw
  | false =>
    obtain ⟨h1, h2⟩ := dispatch_product v hsq
    refine ⟨fun h => Bool.noConfusion h, fun _ => h1, ?_, ?_, ?_⟩
    · rcases h2 with h | h
      · exact Or.inr (Or.inl ⟨rfl, h⟩)
      · exact Or.inr (Or.inr h)
    · intro w hw
      rcases h2 with h | h <;> rw [h] at hw <;> cases hw
    · intro w hw
      rcases h2 with h | h
      · rw [h] at hw
        cases hw
        exact ⟨rfl, rfl, h1.mp h⟩
      · rw [h] at hw; cases hw

/-- C9. Request validation in `main` of pt-mm.c and of mm.c.  An unknown option
ends in `usage` (exit status 1).  Otherwise, with `v` the option variables after
the `getopt` loop: with `-s` given the power engine is called, on `v`, if and
only if `y == 0`, `z == 0`, `x > 0` and `sTimes >= 1`; without `-s` the product
engine is called, on `v`, if and only if `x > 0`, `y > 0` and `z > 0`; in every
other case the outcome is `usage`, before any allocation.  Whatever the
options, an engine that is called was given values that pass these tests; in
particular `MatSquare` never sees `sTimes <= 0`. -/
theorem request_validation (os : List Opt) :
    (ptmm.getopts ptmm.initVars os = none → ptmm.main os = Outcome.usage) ∧
    (∀ v, ptmm.getopts ptmm.initVars os = some v →
      (v.square = true →
        (ptmm.main os = Outcome.power v ↔ (v.y = 0 ∧ v.z = 0 ∧ 0 < v.x ∧ 1 ≤ v.sTimes))) ∧
      (v.square = false →
        (ptmm.main os = Outcome.product v ↔ (0 < v.x ∧ 0 < v.y ∧ 0 < v.z))) ∧
      ((v.square = true ∧ ptmm.main os = Outcome.power v) ∨
        (v.square = false ∧ ptmm.main os = Outcome.product v) ∨
        ptmm.main os = Outcome.usage)) ∧
    (∀ w, ptmm.main os = Outcome.power w →
      w.square = true ∧ w.y = 0 ∧ w.z = 0 ∧ 0 < w.x ∧ 1 ≤ w.sTimes) ∧
    (∀ w, ptmm.main os = Outcome.product w →
      w.square = false ∧ 0 < w.x ∧ 0 < w.y ∧ 0 < w.z) ∧
    (mm.getopts mm.initVars os = none → mm.main os = Outcome.usage) ∧
    (∀ v, mm.getopts mm.initVars os = some v →
      (v.square = true →
        (mm.main os = Outcome.power v ↔ (v.y = 0 ∧ v.z = 0 ∧ 0 < v.x ∧ 1 ≤ v.sTimes))) ∧
      (v.square = false →
        (mm.main os = Outcome.product v ↔ (0 < v.x ∧ 0 < v.y ∧ 0 < v.z))) ∧
      ((v.square = true ∧ mm.main os = Outcome.power v) ∨
        (v.square = false ∧ mm.main os = Outcome.product v) ∨
        mm.main os = Outcome.usage)) ∧
    (∀ w, mm.main os = Outcome.power w →
      w.square = true ∧ w.y = 0 ∧ w.z = 0 ∧ 0 < w.x ∧ 1 ≤ w.sTimes) ∧
    (∀ w, mm.main os = Outcome.product w →
      w.square = false ∧ 0 < w.x ∧ 0 < w.y ∧ 0 < w.z) ∧
    Outcome.usage.exitStatus = some 1 := by
  have key : ∀ (o : Option Vars) (m : Outcome),
      (m = match o with
        | none => Outcome.usage
        | some v => dispatch v) →
      (o = none → m = Outcome.usage) ∧
      (∀ v, o = some v →
        (v.square = true →
          (m = Outcome.power v ↔ (v.y = 0 ∧ v.z = 0 ∧ 0 < v.x ∧ 1 ≤ v.sTimes))) ∧
        (v.square = false →
          (m = Outcome.product v ↔ (0 < v.x ∧ 0 < v.y ∧ 0 < v.z))) ∧
        ((v.square = true ∧ m = Outcome.power v) ∨
          (v.square = false ∧ m = Outcome.product v) ∨
          m = Outcome.usage)) ∧
      (∀ w, m = Outcome.power w →
        w.square = true ∧ w.y = 0 ∧ w.z = 0 ∧ 0 < w.x ∧ 1 ≤ w.sTimes) ∧
      (∀ w, m = Outcome.product w →
        w.square = false ∧ 0 < w.x ∧ 0 < w.y ∧ 0 < w.z) := by
    intro o m hm
    cases o with
    | none =>
      subst hm
      refine ⟨fun _ => rfl, ?_, ?_, ?_⟩
      · intro v h; cases h
      · intro w h; cases h
      · intro w h; cases h
    | some v =>
      subst hm
      obtain ⟨h1, h2, h3, h4, h5⟩ := dispatch_spec v
      refine ⟨?_, ?_, ?_, ?_⟩
      · intro h; cases h
      · intro v1 hv
        cases hv
        exact ⟨h1, h2, h3⟩
      · intro w hw
        obtain ⟨rfl, h⟩ := h4 w hw
        exact h
      · intro w hw
        obtain ⟨rfl, h⟩ := h5 w hw
        exact h
  obtain ⟨a1, a2, a3, a4⟩ := key (ptmm.getopts ptmm.initVars os) (ptmm.main os) rfl
  obtain ⟨b1, b2, b3, b4⟩ := key (mm.getopts mm.initVars os) (mm.main os) rfl
  exact ⟨a1, a2, a3, a4, b1, b2, b3, b4, rfl⟩

/-! ## The serial reference -/

theorem rowCells_concat (ix jx c : Nat) :
    rowCells ix jx (c + 1) = rowCells ix jx c ++ [(ix, jx + c)] := by
  unfold rowCells
  rw [List.range'_concat, List.map_append]
  simp

namespace mm

theorem store_buf (h : Heap) (P i : Nat) (v : Int) (Q : Nat) :
    (store h P i v).buf Q = if Q = P then write (h.buf Q) i v else h.buf Q := rfl

theorem MatMul_row (A B C : Nat) (y z ix : Nat) (hA : A ≠ C) (hB : B ≠ C) (h1 : Heap) :
    ∀ j, ((List.range j).foldl
        (fun h2 jx => store h2 C (idx ix jx z) (tval (h2.buf A) (h2.buf B) y z ix jx)) h1).buf =
      fun Q => if Q = C then
          writeCells (h1.buf A) (h1.buf B) y z (rowCells ix 0 j) (h1.buf C)
        else h1.buf Q := by
  intro j
  induction j with
  | zero =>
    funext Q
    by_cases hQ : Q = C
    · rw [if_pos hQ, hQ]; rfl
    · rw [if_neg hQ]; rfl
  | succ j ih =>
    rw [List.range_succ, List.foldl_append]
    simp only [List.foldl_cons, List.foldl_nil]
    funext Q
    rw [store_buf, ih]
    simp only [if_neg hA, if_neg hB]
    by_cases hQ : Q = C
    · simp only [if_pos hQ]
      rw [rowCells_concat, writeCells_append, Nat.zero_add]
      rfl
    · simp only [if_neg hQ]

/-- The heap after `MatMul (A, B, C, x, y, z)` when `C` is neither `A` nor `B`:
only the buffer behind `C` has changed, and its first `x * z` elements hold the
inner products. -/
theorem MatMul_buf (h : Heap) (A B C : Nat) (x y z : Nat) (hA : A ≠ C) (hB : B ≠ C) :
    (MatMul h A B C x y z).buf =
      fun Q => if Q = C then
          (fun m => if m < x * z then tval (h.buf A) (h.buf B) y z (m / z) (m % z)
            else h.buf C m)
        else h.buf Q := by
  have outer : ∀ i, ((List.range i).foldl
      (fun h1 ix =>
        (List.range z).foldl
          (fun h2 jx => store h2 C (idx ix jx z) (tval (h2.buf A) (h2.buf B) y z ix jx)) h1)
      h).buf =
      fun Q => if Q = C then
          writeCells (h.buf A) (h.buf B) y z (cellsFrom z 0 (i * z)) (h.buf C)
        else h.buf Q := by
    intro i
    induction i with
    | zero =>
      funext Q
      by_cases hQ : Q = C
      · rw [if_pos hQ, hQ, Nat.zero_mul]; rfl
      · rw [if_neg hQ]; rfl
    | succ i ih =>
      rw [List.range_succ, List.foldl_append]
      simp only [List.foldl_cons, List.foldl_nil]
      rw [MatMul_row A B C y z i hA hB _ z, ih]
      simp only [if_neg hA, if_neg hB, if_true]
      funext Q
      by_cases hQ : Q = C
      · rw [if_pos hQ, if_pos hQ]
        have e1 : (i + 1) * z = i * z + z := by ring
        rw [e1, cellsFrom_add, writeCells_append, Nat.zero_add,
          rowCells_eq_cellsFrom z i z 0 (by omega), Nat.add_zero]
      · rw [if_neg hQ, if_neg hQ, if_neg hQ]
  unfold MatMul
  rw [outer x]
  funext Q
  by_cases hQ : Q = C
  · rw [if_pos hQ, if_pos hQ]
    funext m
    rw [writeCells_cellsFrom_apply]
    by_cases hm : m < x * z
    · rw [if_pos (by omega), if_pos hm]
    · rw [if_neg (by omega), if_neg hm]
  · rw [if_neg hQ, if_neg hQ]

theorem toMat_MatMul (h : Heap) (A B C x : Nat) (hA : A ≠ C) (hB : B ≠ C) :
    toMat x ((MatMul h A B C x x x).buf C) = toMat x (h.buf A) * toMat x (h.buf B) := by
  ext i j
  rw [Matrix.mul_apply, MatMul_buf h A B C x x x hA hB]
  simp only [toMat, Matrix.of_apply, if_true]
  rw [if_pos (show idx i.val j.val x < x * x from cell_lt x i.val j.val i.isLt j.isLt),
    (idx_div_mod x i.val j.val j.isLt).1,
    (idx_div_mod x i.val j.val j.isLt).2, tval_eq_sum, Finset.sum_range]

theorem MatMul_other (h : Heap) (A B C Q x y z : Nat) (hA : A ≠ C) (hB : B ≠ C) (hQ : Q ≠ C) :
    (MatMul h A B C x y z).buf Q = h.buf Q := by
  rw [MatMul_buf h A B C x y z hA hB]
  simp only [if_neg hQ]

theorem toMat_memcpy (h : Heap) (B T x : Nat) :
    toMat x ((memcpy h B T (x * x)).buf B) = toMat x (h.buf T) := by
  ext i j
  simp only [toMat, Matrix.of_apply, memcpy, if_true]
  rw [if_pos (show idx i.val j.val x < x * x from cell_lt x i.val j.val i.isLt j.isLt)]

theorem memcpy_other (h : Heap) (B T n Q : Nat) (hQ : Q ≠ B) :
    (memcpy h B T n).buf Q = h.buf Q := by
  simp only [memcpy, if_neg hQ]

theorem squareLoop_done (B T x times : Nat) (fuel i : Nat) (h : Heap) (hi : ¬ i < times) :
    squareLoop B T x times fuel i h = some h := by
  cases fuel with
  | zero => simp only [squareLoop, if_neg hi]
  | succ fuel => simp only [squareLoop, if_neg hi]

theorem squareLoop_spec (A B T x times : Nat) (hAB : A ≠ B) (hTA : T ≠ A) (hTB : T ≠ B)
    (M : Matrix (Fin x) (Fin x) Int) (a0 : Buf) :
    ∀ (fuel i : Nat) (h : Heap), i ≤ times → times + 1 ≤ 2 * fuel + i →
      toMat x (h.buf B) = M ^ 2 ^ i → h.buf A = a0 →
      ∃ h1, squareLoop B T x times fuel i h = some h1 ∧
        toMat x (h1.buf B) = M ^ 2 ^ times ∧ h1.buf A = a0 := by
  intro fuel
  induction fuel with
  | zero =>
    intro i h hi hf hB hA
    have : i = times := by omega
    subst this
    exact ⟨h, squareLoop_done B T x i 0 i h (by omega), hB, hA⟩
  | succ fuel ih =>
    intro i h hi hf hB hA
    by_cases hlt : i < times
    · simp only [squareLoop, if_pos hlt]
      have hT : toMat x ((MatMul h B B T x x x).buf T) = M ^ 2 ^ (i + 1) := by
        rw [toMat_MatMul h B B T x (Ne.symm hTB) (Ne.symm hTB), hB, ← pow_two, ← pow_mul,
          ← pow_succ]
      have hA1 : (MatMul h B B T x x x).buf A = a0 := by
        rw [MatMul_other h B B T A x x x (Ne.symm hTB) (Ne.symm hTB) (Ne.symm hTA)]
        exact hA
      by_cases hlast : i = times - 1
      · rw [if_pos hlast]
        rw [squareLoop_done B T x times fuel (i + 2) _ (by omega)]
        refine ⟨_, rfl, ?_, ?_⟩
        · rw [toMat_memcpy, hT]
          have : i + 1 = times := by omega
          rw [this]
        · rw [memcpy_other _ B T _ A hAB]
          exact hA1
      · rw [if_neg hlast]
        apply ih (i + 2) _ (by omega) (by omega)
        · rw [toMat_MatMul _ T T B x hTB hTB, hT, ← pow_two, ← pow_mul, ← pow_succ]
        · rw [MatMul_other _ T T B A x x x hTB hTB hAB]
          exact hA1
    · have : i = times := by omega
      subst this
      exact ⟨h, squareLoop_done B T x i (fuel + 1) i h hlt, hB, hA⟩

/-- C10. Serial reference power: for pointers `A`, `B` and the temporary `T`
to three different buffers, every `x` and `times ≥ 1`, `MatSquare (A, B, x, times)` of
mm.c returns, the buffer behind `B` then holds `A^(2^times)` (the input squared
`times` times in succession) as an `x`-by-`x` matrix over exact arithmetic, for
odd and even `times` alike, and the buffer behind `A` is unchanged. -/
theorem MatSquare_power (h : Heap) (A B T x times : Nat) (hAB : A ≠ B) (hTA : T ≠ A)
    (hTB : T ≠ B) (ht : 1 ≤ times) :
    ∃ h1, MatSquare h A B T x times = some h1 ∧
      toMat x (h1.buf B) = toMat x (h.buf A) ^ 2 ^ times ∧
      h1.buf A = h.buf A := by
  have hB0 : toMat x ((MatMul h A A B x x x).buf B) = toMat x (h.buf A) ^ 2 ^ 1 := by
    rw [toMat_MatMul h A A B x hAB hAB, pow_one, pow_two]
  have hA0 : (MatMul h A A B x x x).buf A = h.buf A :=
    MatMul_other h A A B A x x x hAB hAB hAB
  unfold MatSquare
  by_cases h1 : times > 1
  · simp only [if_pos h1]
    exact squareLoop_spec A B T x times hAB hTA hTB (toMat x (h.buf A)) (h.buf A) times 1 _
      (by omega) (by omega) hB0 hA0
  · simp only [if_neg h1]
    have : times = 1 := by omega
    subst this
    exact ⟨_, rfl, hB0, hA0⟩

end mm

/-! ## Instances at concrete requests -/

namespace ptmm

theorem partition_coverage_witness :
    (1 ≤ ex23.x * ex23.z ∧ 1 ≤ ex23.num_threads) ∧
    ∃ g1, MatMul_setup ex23 = some g1 ∧
      g1.num_threads = min ex23.num_threads (ex23.x * ex23.z) ∧
      g1.part = (ex23.x * ex23.z) / g1.num_threads ∧
      (∀ i, i < g1.num_threads →
        matmul_sn g1 i = i * g1.part ∧
        matmul_en g1 i =
          (if i + 1 < g1.num_threads then (g1.part : Int)
           else ((ex23.x * ex23.z : Nat) : Int) - (matmul_sn g1 i : Nat))) ∧
      (∀ i k, i < g1.num_threads → owns g1 i k → k < ex23.x * ex23.z) ∧
      (∀ i j k, i < g1.num_threads → j < g1.num_threads → i ≠ j →
        ¬ (owns g1 i k ∧ owns g1 j k)) ∧
      (∀ k, k < ex23.x * ex23.z → ∃ i, i < g1.num_threads ∧ owns g1 i k) :=
  ⟨⟨by decide, by decide⟩, partition_coverage ex23 (by decide) (by decide)⟩

theorem clamp_no_idle_worker_witness :
    (1 ≤ ex12.num_threads ∧ 1 ≤ ex12.x * ex12.z ∧ 1 ≤ ex12.x * ex12.x ∧
      ex12.x * ex12.z < ex12.num_threads ∧ ex12.x * ex12.x < ex12.num_threads) ∧
    (∃ g1, MatMul_setup ex12 = some g1 ∧
      g1.num_threads = min ex12.num_threads (ex12.x * ex12.z) ∧
      (∀ i, i < g1.num_threads → 1 ≤ matmul_en g1 i) ∧
      (ex12.x * ex12.z < ex12.num_threads →
        g1.num_threads = ex12.x * ex12.z ∧ g1.part = 1 ∧
        ∀ i, i < g1.num_threads → matmul_en g1 i = 1)) ∧
    (∃ s0, MatSquare_setup ex12 = some s0 ∧
      s0.g.num_threads = min ex12.num_threads (ex12.x * ex12.x) ∧
      (∀ i, i < s0.g.num_threads → 1 ≤ matsquare_en s0.g i) ∧
      (ex12.x * ex12.x < ex12.num_threads →
        s0.g.num_threads = ex12.x * ex12.x ∧ s0.g.part = 1 ∧
        ∀ i, i < s0.g.num_threads → matsquare_en s0.g i = 1)) :=
  ⟨⟨by decide, by decide, by decide, by decide, by decide⟩,
    (clamp_no_idle_worker ex12 (by decide)).1 (by decide),
    (clamp_no_idle_worker ex12 (by decide)).2 (by decide)⟩

theorem lockStep_ex22 : LockStep ex22.num_threads 2 [0, 1, 1, 0, 1, 0, 0, 1] :=
  LockStep.round 1 [0, 1] [1, 0] [1, 0, 0, 1] (List.Perm.refl _) (List.Perm.swap 0 1 [])
    (LockStep.round 0 [1, 0] [0, 1] [] (List.Perm.swap 0 1 []) (List.Perm.refl _)
      LockStep.done)

theorem power_round_count_witness :
    (1 ≤ ex22.x ∧ 1 ≤ ex22.num_threads ∧ ex22.num_threads ≤ ex22.x * ex22.x ∧ 1 ≤ 2 ∧
      ex22.sTimes = ((2 : Nat) : Int) ∧
      LockStep ex22.num_threads 2 [0, 1, 1, 0, 1, 0, 0, 1]) ∧
    ∃ s0 s1, MatSquare_setup ex22 = some s0 ∧ run s0 [0, 1, 1, 0, 1, 0, 0, 1] = some s1 ∧
      (∀ i, i < ex22.num_threads →
        (s1.threads i).pc = Pc.exited ∧ (s1.threads i).depth = 2) ∧
      s1.decs = 2 ∧ s1.g.sTimes = 0 ∧ (∀ t, step s1 t = none) ∧
      MatSquare ex22 [0, 1, 1, 0, 1, 0, 0, 1] = some s1.g :=
  ⟨⟨by decide, by decide, by decide, by decide, by decide, lockStep_ex22⟩,
    power_round_count ex22 2 [0, 1, 1, 0, 1, 0, 0, 1] (by decide) (by decide) (by decide)
      (by decide) (by decide) lockStep_ex22⟩

theorem power_squares_input_witness :
    (1 ≤ ex22.x ∧ 1 ≤ ex22.num_threads ∧ ex22.num_threads ≤ ex22.x * ex22.x ∧ 1 ≤ 2 ∧
      ex22.sTimes = ((2 : Nat) : Int) ∧
      LockStep ex22.num_threads 2 [0, 1, 1, 0, 1, 0, 0, 1]) ∧
    ∃ s0 s1, MatSquare_setup ex22 = some s0 ∧ run s0 [0, 1, 1, 0, 1, 0, 0, 1] = some s1 ∧
      MatSquare ex22 [0, 1, 1, 0, 1, 0, 0, 1] = some s1.g ∧
      s1.g.A = ex22.A ∧
      (∀ i j, i < ex22.x → j < ex22.x →
        s1.g.B (idx i j ex22.x) =
          ∑ k in Finset.range ex22.x, ex22.A (idx i k ex22.x) * ex22.A (idx k j ex22.x)) ∧
      (∀ k i j, i < ex22.x → j < ex22.x →
        storesInto s1 k i j = if 1 ≤ k ∧ k ≤ 2 then 1 else 0) :=
  ⟨⟨by decide, by decide, by decide, by decide, by decide, lockStep_ex22⟩,
    power_squares_input ex22 2 [0, 1, 1, 0, 1, 0, 0, 1] (by decide) (by decide) (by decide)
      (by decide) (by decide) lockStep_ex22⟩

end ptmm

namespace mm

theorem MatSquare_power_witness :
    ((0 : Nat) ≠ 1 ∧ (2 : Nat) ≠ 0 ∧ (2 : Nat) ≠ 1 ∧ 1 ≤ 2) ∧
    ∃ h1, MatSquare heap11 0 1 2 1 2 = some h1 ∧
      toMat 1 (h1.buf 1) = toMat 1 (heap11.buf 0) ^ 2 ^ 2 ∧
      h1.buf 0 = heap11.buf 0 :=
  ⟨⟨by decide, by decide, by decide, by decide⟩,
    MatSquare_power heap11 0 1 2 1 2 (by decide) (by decide) (by decide) (by decide)⟩

end mm

/-! ## The cell loops on any start -/

theorem writeCells_cons (L R : Buf) (y z : Nat) (c : Nat × Nat) (cs : List (Nat × Nat))
    (out : Buf) :
    writeCells L R y z (c :: cs) out =
      writeCells L R y z cs (write out (idx c.1 c.2 z) (tval L R y z c.1 c.2)) := rfl

/-- An index that is the image of no cell of the list keeps its value. -/
theorem writeCells_other (L R : Buf) (y z m : Nat) :
    ∀ (cs : List (Nat × Nat)) (out : Buf), (∀ c, c ∈ cs → idx c.1 c.2 z ≠ m) →
      writeCells L R y z cs out m = out m := by
  intro cs
  induction cs with
  | nil => intro out _; rfl
  | cons c cs ih =>
    intro out h
    rw [writeCells_cons, ih _ (fun c1 hc1 => h c1 (List.mem_cons_of_mem _ hc1))]
    unfold write
    rw [if_neg (fun hm => h c (List.mem_cons_self _ _) hm.symm)]

/-- An index that is the image of a cell of the list, all of whose columns are
below `z`, holds the inner product of its row and column. -/
theorem writeCells_mem (L R : Buf) (y z m : Nat) :
    ∀ (cs : List (Nat × Nat)) (out : Buf), (∀ c, c ∈ cs → c.2 < z) →
      (∃ c, c ∈ cs ∧ idx c.1 c.2 z = m) →
      writeCells L R y z cs out m = tval L R y z (m / z) (m % z) := by
  intro cs
  induction cs with
  | nil =>
    intro out _ h
    obtain ⟨c, hc, _⟩ := h
    exact absurd hc (List.not_mem_nil c)
  | cons c cs ih =>
    intro out hb h
    rw [writeCells_cons]
    by_cases hin : ∃ c1, c1 ∈ cs ∧ idx c1.1 c1.2 z = m
    · exact ih _ (fun c1 hc1 => hb c1 (List.mem_cons_of_mem _ hc1)) hin
    · have hnot : ∀ c1, c1 ∈ cs → idx c1.1 c1.2 z ≠ m := fun c1 hc1 hm => hin ⟨c1, hc1, hm⟩
      rw [writeCells_other L R y z m cs _ hnot]
      obtain ⟨c1, hc1, hm⟩ := h
      rcases List.mem_cons.mp hc1 with rfl | hc1
      · unfold write
        rw [if_pos hm.symm, ← hm, (idx_div_mod z c1.1 c1.2 (hb c1 (List.mem_cons_self _ _))).1,
          (idx_div_mod z c1.1 c1.2 (hb c1 (List.mem_cons_self _ _))).2]
      · exact absurd hm (hnot c1 hc1)

namespace ptmm

/-- The column loop from any start: the cells it stores depend on the start
column, the iteration bound and the countdown only, and lie in row `ix` at
columns from `jx` up to the bound. -/
theorem colLoop_shape (z ix : Nat) :
    ∀ (n jx : Nat) (en : Int), ∃ (cs : List (Nat × Nat)) (e : Int) (h : Bool),
      (∀ c, c ∈ cs → c.1 = ix ∧ jx ≤ c.2 ∧ c.2 < jx + n) ∧
      ∀ (L R : Buf) (y : Nat) (p : Pass), p.en = en → p.hit = false →
        colLoop L R y z ix n jx p =
          { out := writeCells L R y z cs p.out, en := e, cells := p.cells ++ cs, hit := h } := by
  intro n
  induction n with
  | zero =>
    intro jx en
    refine ⟨[], en, false, ?_, ?_⟩
    · intro c hc; exact absurd hc (List.not_mem_nil c)
    · intro L R y p hen hh
      cases p
      simp_all [colLoop, writeCells]
  | succ n ih =>
    intro jx en
    by_cases h0 : en - 1 = 0
    · refine ⟨[(ix, jx)], 0, true, ?_, ?_⟩
      · intro c hc
        rw [List.mem_singleton] at hc
        subst hc
        exact ⟨rfl, Nat.le_refl _, by omega⟩
      · intro L R y p hen _
        simp only [colLoop]
        rw [if_pos (by rw [hen]; exact h0)]
        simp [writeCells, hen, h0]
    · obtain ⟨cs, e, h, hb, hrun⟩ := ih (jx + 1) (en - 1)
      refine ⟨(ix, jx) :: cs, e, h, ?_, ?_⟩
      · intro c hc
        rcases List.mem_cons.mp hc with rfl | hc
        · exact ⟨rfl, Nat.le_refl _, by omega⟩
        · obtain ⟨h1, h2, h3⟩ := hb c hc
          exact ⟨h1, by omega, by omega⟩
      · intro L R y p hen _
        simp only [colLoop]
        rw [if_neg (by rw [hen]; exact h0)]
        rw [hrun L R y _ (by simp only [hen]) rfl]
        simp [writeCells]

/-- The row loop from any start: the cells it stores depend on the start cell,
the iteration bound and the countdown only, and lie in the rows the loop header
allows, at columns below `z`. -/
theorem rowLoop_shape (z : Nat) :
    ∀ (rows ix jx : Nat) (en : Int), ∃ (cs : List (Nat × Nat)) (e : Int) (h : Bool),
      (∀ c, c ∈ cs → ix ≤ c.1 ∧ c.1 < ix + rows ∧ c.2 < z) ∧
      ∀ (L R : Buf) (y : Nat) (p : Pass), p.en = en → p.hit = false →
        rowLoop L R y z rows ix jx p =
          { out := writeCells L R y z cs p.out, en := e, cells := p.cells ++ cs, hit := h } := by
  intro rows
  induction rows with
  | zero =>
    intro ix jx en
    refine ⟨[], en, false, ?_, ?_⟩
    · intro c hc; exact absurd hc (List.not_mem_nil c)
    · intro L R y p hen hh
      cases p
      simp_all [rowLoop, writeCells]
  | succ rows ih =>
    intro ix jx en
    obtain ⟨cs1, e1, h1, hb1, hrun1⟩ := colLoop_shape z ix (z - jx) jx en
    have hb1z : ∀ c, c ∈ cs1 → ix ≤ c.1 ∧ c.1 < ix + (rows + 1) ∧ c.2 < z := by
      intro c hc
      obtain ⟨a, b, d⟩ := hb1 c hc
      exact ⟨by omega, by omega, by omega⟩
    cases h1 with
    | true =>
      refine ⟨cs1, e1, true, hb1z, ?_⟩
      intro L R y p hen hh
      simp only [rowLoop]
      rw [hrun1 L R y p hen hh]
      simp only [if_true]
    | false =>
      obtain ⟨cs2, e2, h2, hb2, hrun2⟩ := ih (ix + 1) 0 e1
      refine ⟨cs1 ++ cs2, e2, h2, ?_, ?_⟩
      · intro c hc
        rcases List.mem_append.mp hc with hc | hc
        · exact hb1z c hc
        · obtain ⟨a, b, d⟩ := hb2 c hc
          exact ⟨by omega, by omega, d⟩
      · intro L R y p hen hh
        simp only [rowLoop]
        rw [hrun1 L R y p hen hh]
        simp only [Bool.false_eq_true, if_false]
        rw [hrun2 L R y _ rfl rfl]
        simp only [writeCells_append, List.append_assoc]

end ptmm

theorem idx_lt (x z i j : Nat) (hi : i < x) (hj : j < z) : idx i j z < x * z := by
  unfold idx
  have h1 : (i + 1) * z ≤ x * z := Nat.mul_le_mul_right z (by omega)
  have h2 : (i + 1) * z = i * z + z := by ring
  omega

/-- The inner product reads its operands at the indices `idx(ix,kx,y)` and
`idx(kx,jx,z)` with `kx < y` only. -/
theorem tval_congr (L R L1 R1 : Buf) (y z ix jx : Nat)
    (hL : ∀ kx, kx < y → L1 (idx ix kx y) = L (idx ix kx y))
    (hR : ∀ kx, kx < y → R1 (idx kx jx z) = R (idx kx jx z)) :
    tval L1 R1 y z ix jx = tval L R y z ix jx := by
  rw [tval_eq_sum, tval_eq_sum]
  apply Finset.sum_congr rfl
  intro k hk
  rw [hL k (Finset.mem_range.mp hk), hR k (Finset.mem_range.mp hk)]

theorem writeCells_congr (L R L1 R1 : Buf) (y z : Nat) :
    ∀ (cs : List (Nat × Nat)) (out : Buf),
      (∀ c, c ∈ cs → tval L1 R1 y z c.1 c.2 = tval L R y z c.1 c.2) →
      writeCells L1 R1 y z cs out = writeCells L R y z cs out := by
  intro cs
  induction cs with
  | nil => intro out _; rfl
  | cons c cs ih =>
    intro out h
    rw [writeCells_cons, writeCells_cons, h c (List.mem_cons_self _ _),
      ih _ (fun c1 hc1 => h c1 (List.mem_cons_of_mem _ hc1))]

namespace ptmm

/-- The pass of worker `t` of `matmul`: the cells it stores are fixed by `x`,
`z`, `part`, `num_threads` and `t`, lie inside the `x`-by-`z` result, and the
pass stores the inner products of exactly these cells. -/
theorem matmul_shape (g : Globals) (t : Nat) :
    ∃ cs : List (Nat × Nat), (∀ c, c ∈ cs → c.1 < g.x ∧ c.2 < g.z) ∧
      ∀ g1 : Globals, g1.x = g.x → g1.z = g.z → g1.part = g.part →
        g1.num_threads = g.num_threads →
        (matmul g1 t).out = writeCells g1.A g1.B g1.y g.z cs g1.C ∧
        (matmul g1 t).cells = cs := by
  obtain ⟨cs, e, h, hb, hrun⟩ :=
    rowLoop_shape g.z (g.x - t * g.part / g.x) (t * g.part / g.x) (t * g.part % g.x)
      (matmul_en g t)
  refine ⟨cs, ?_, ?_⟩
  · intro c hc
    obtain ⟨a, b, d⟩ := hb c hc
    exact ⟨by omega, d⟩
  · intro g1 hx hz hp hn
    have hen : matmul_en g1 t = matmul_en g t := by
      unfold matmul_en matmul_sn; rw [hx, hz, hp, hn]
    unfold matmul
    simp only [matmul_sn, hx, hz, hp]
    rw [hrun g1.A g1.B g1.y _ hen rfl]
    exact ⟨rfl, List.nil_append cs⟩

/-- The pass of worker `t` of `matsquare`: the cells it stores are fixed by `x`,
`part`, `num_threads` and `t`, lie inside the `x`-by-`x` result, and the pass
stores the inner products of exactly these cells. -/
theorem matsquare_shape (g : Globals) (t : Nat) :
    ∃ cs : List (Nat × Nat), (∀ c, c ∈ cs → c.1 < g.x ∧ c.2 < g.x) ∧
      ∀ g1 : Globals, g1.x = g.x → g1.part = g.part → g1.num_threads = g.num_threads →
        (matsquare_pass g1 t).out = writeCells g1.A g1.A g.x g.x cs g1.B ∧
        (matsquare_pass g1 t).cells = cs := by
  obtain ⟨cs, e, h, hb, hrun⟩ :=
    rowLoop_shape g.x (g.x - t * g.part / g.x) (t * g.part / g.x) (t * g.part % g.x)
      (matsquare_en g t)
  refine ⟨cs, ?_, ?_⟩
  · intro c hc
    obtain ⟨a, b, d⟩ := hb c hc
    exact ⟨by omega, d⟩
  · intro g1 hx hp hn
    have hen : matsquare_en g1 t = matsquare_en g t := by
      unfold matsquare_en matsquare_sn; rw [hx, hp, hn]
    unfold matsquare_pass
    simp only [matsquare_sn, hx, hp]
    rw [hrun g1.A g1.A g.x _ hen rfl]
    exact ⟨rfl, List.nil_append cs⟩

/-- C15. Index safety of the threaded kernels, for every shape, `part`, worker
count and worker id: every cell `(ix, jx)` that `matmul` stores has `ix < x` and
`jx < z`, so the store into `C` is at an index below `x * z`, and its inner
product reads `A` at indices below `x * y` and `B` at indices below `y * z`
(`kx < y`); the pass stores nothing else and does not depend on `A` beyond
`x * y` or on `B` beyond `y * z`.  Likewise every cell that `matsquare` stores
has `ix < x` and `jx < x`, all its indices are below `x * x`, and the pass
stores nothing else and does not depend on `A` beyond `x * x`. -/
theorem index_safety (g : Globals) (t : Nat) :
    (∀ c, c ∈ (matmul g t).cells →
      c.1 < g.x ∧ c.2 < g.z ∧ idx c.1 c.2 g.z < g.x * g.z ∧
      ∀ kx, kx < g.y → idx c.1 kx g.y < g.x * g.y ∧ idx kx c.2 g.z < g.y * g.z) ∧
    (∀ m, (∀ c, c ∈ (matmul g t).cells → idx c.1 c.2 g.z ≠ m) → (matmul g t).out m = g.C m) ∧
    (∀ A1 B1 : Buf, (∀ m, m < g.x * g.y → A1 m = g.A m) → (∀ m, m < g.y * g.z → B1 m = g.B m) →
      (matmul { g with A := A1, B := B1 } t).out = (matmul g t).out ∧
      (matmul { g with A := A1, B := B1 } t).cells = (matmul g t).cells) ∧
    (∀ c, c ∈ (matsquare_pass g t).cells →
      c.1 < g.x ∧ c.2 < g.x ∧ idx c.1 c.2 g.x < g.x * g.x ∧
      ∀ kx, kx < g.x → idx c.1 kx g.x < g.x * g.x ∧ idx kx c.2 g.x < g.x * g.x) ∧
    (∀ m, (∀ c, c ∈ (matsquare_pass g t).cells → idx c.1 c.2 g.x ≠ m) →
      (matsquare_pass g t).out m = g.B m) ∧
    (∀ A1 : Buf, (∀ m, m < g.x * g.x → A1 m = g.A m) →
      (matsquare_pass { g with A := A1 } t).out = (matsquare_pass g t).out ∧
      (matsquare_pass { g with A := A1 } t).cells = (matsquare_pass g t).cells) := by
  obtain ⟨cs, hb, hrun⟩ := matmul_shape g t
  obtain ⟨hout, hcells⟩ := hrun g rfl rfl rfl rfl
  obtain ⟨cq, hbq, hrunq⟩ := matsquare_shape g t
  obtain ⟨houtq, hcellsq⟩ := hrunq g rfl rfl rfl
  refine ⟨?_, ?_, ?_, ?_, ?_, ?_⟩
  · intro c hc
    rw [hcells] at hc
    obtain ⟨h1, h2⟩ := hb c hc
    refine ⟨h1, h2, idx_lt g.x g.z c.1 c.2 h1 h2, ?_⟩
    intro kx hk
    exact ⟨idx_lt g.x g.y c.1 kx h1 hk, idx_lt g.y g.z kx c.2 hk h2⟩
  · intro m hm
    rw [hcells] at hm
    rw [hout]
    exact writeCells_other g.A g.B g.y g.z m cs g.C hm
  · intro A1 B1 hA hB
    obtain ⟨hout1, hcells1⟩ := hrun { g with A := A1, B := B1 } rfl rfl rfl rfl
    refine ⟨?_, by rw [hcells1, hcells]⟩
    rw [hout1, hout]
    apply writeCells_congr
    intro c hc
    obtain ⟨h1, h2⟩ := hb c hc
    exact tval_congr g.A g.B A1 B1 g.y g.z c.1 c.2
      (fun kx hk => hA _ (idx_lt g.x g.y c.1 kx h1 hk))
      (fun kx hk => hB _ (idx_lt g.y g.z kx c.2 hk h2))
  · intro c hc
    rw [hcellsq] at hc
    obtain ⟨h1, h2⟩ := hbq c hc
    refine ⟨h1, h2, idx_lt g.x g.x c.1 c.2 h1 h2, ?_⟩
    intro kx hk
    exact ⟨idx_lt g.x g.x c.1 kx h1 hk, idx_lt g.x g.x kx c.2 hk h2⟩
  · intro m hm
    rw [hcellsq] at hm
    rw [houtq]
    exact writeCells_other g.A g.A g.x g.x m cq g.B hm
  · intro A1 hA
    obtain ⟨hout1, hcells1⟩ := hrunq { g with A := A1 } rfl rfl rfl
    refine ⟨?_, by rw [hcells1, hcellsq]⟩
    rw [hout1, houtq]
    apply writeCells_congr
    intro c hc
    obtain ⟨h1, h2⟩ := hbq c hc
    exact tval_congr g.A g.A A1 A1 g.x g.x c.1 c.2
      (fun kx hk => hA _ (idx_lt g.x g.x c.1 kx h1 hk))
      (fun kx hk => hA _ (idx_lt g.x g.x kx c.2 hk h2))

end ptmm

/-! ## Inputs are read-only -/

namespace ptmm

theorem matsquare_pass_dec (g : Globals) (t : Nat) :
    matsquare_pass (if t = 0 then { g with sTimes := g.sTimes - 1 } else g) t =
      matsquare_pass g t := by
  split <;> rfl

theorem pass_other (g : Globals) (t m : Nat)
    (hm : ∀ c, c ∈ (matsquare_pass g t).cells → idx c.1 c.2 g.x ≠ m) :
    (matsquare_pass g t).out m = g.B m := by
  obtain ⟨cq, _, hrunq⟩ := matsquare_shape g t
  obtain ⟨houtq, hcellsq⟩ := hrunq g rfl rfl rfl
  rw [hcellsq] at hm
  rw [houtq]
  exact writeCells_other g.A g.A g.x g.x m cq g.B hm

/-- What a step of a worker of the power engine leaves alone: `A`, `C`, the
dimensions, `part` and `num_threads`; `sTimes` unless the worker is worker 0,
which may take one off; and every element of `B` that is not a cell of the
worker's pass. -/
theorem step_frame (s s1 : Sys) (t : Nat) (h : step s t = some s1) :
    s1.g.A = s.g.A ∧ s1.g.C = s.g.C ∧ s1.g.x = s.g.x ∧ s1.g.y = s.g.y ∧ s1.g.z = s.g.z ∧
    s1.g.part = s.g.part ∧ s1.g.num_threads = s.g.num_threads ∧
    (s1.g.sTimes = s.g.sTimes ∨ (t = 0 ∧ s1.g.sTimes = s.g.sTimes - 1)) ∧
    (∀ m, (∀ c, c ∈ (matsquare_pass s.g t).cells → idx c.1 c.2 s.g.x ≠ m) →
      s1.g.B m = s.g.B m) := by
  have hsT : ∀ g1 : Globals, g1 = (if t = 0 then { s.g with sTimes := s.g.sTimes - 1 } else s.g) →
      g1.A = s.g.A ∧ g1.C = s.g.C ∧ g1.x = s.g.x ∧ g1.y = s.g.y ∧ g1.z = s.g.z ∧
      g1.part = s.g.part ∧ g1.num_threads = s.g.num_threads ∧
      (g1.sTimes = s.g.sTimes ∨ (t = 0 ∧ g1.sTimes = s.g.sTimes - 1)) := by
    intro g1 hg1
    by_cases h0 : t = 0
    · rw [if_pos h0] at hg1
      subst hg1
      exact ⟨rfl, rfl, rfl, rfl, rfl, rfl, rfl, Or.inr ⟨h0, rfl⟩⟩
    · rw [if_neg h0] at hg1
      subst hg1
      exact ⟨rfl, rfl, rfl, rfl, rfl, rfl, rfl, Or.inl rfl⟩
  obtain ⟨a1, a2, a3, a4, a5, a6, a7, a8⟩ := hsT _ rfl
  unfold step at h
  split at h
  · split at h
    · simp only [matsquare_pass_dec] at h
      split at h
      · split at h
        · cases h
          exact ⟨a1, a2, a3, a4, a5, a6, a7, a8, fun m hm => pass_other s.g t m hm⟩
        · cases h
          exact ⟨a1, a2, a3, a4, a5, a6, a7, a8, fun m hm => pass_other s.g t m hm⟩
      · cases h
        exact ⟨a1, a2, a3, a4, a5, a6, a7, a8, fun m hm => pass_other s.g t m hm⟩
    · cases h
      exact ⟨rfl, rfl, rfl, rfl, rfl, rfl, rfl, Or.inl rfl, fun _ _ => rfl⟩
    · cases h
    · cases h
  · cases h

end ptmm

namespace ptmm

theorem runIn_cons (g : Globals) (t : Nat) (ts : List Nat) :
    runIn g (t :: ts) = runIn { g with C := (matmul g t).out } ts := rfl

theorem runIn_frame :
    ∀ (order : List Nat) (g : Globals),
      (runIn g order).A = g.A ∧ (runIn g order).B = g.B ∧ (runIn g order).x = g.x ∧
      (runIn g order).y = g.y ∧ (runIn g order).z = g.z ∧
      (runIn g order).sTimes = g.sTimes ∧ (runIn g order).part = g.part ∧
      (runIn g order).num_threads = g.num_threads := by
  intro order
  induction order with
  | nil => intro g; exact ⟨rfl, rfl, rfl, rfl, rfl, rfl, rfl, rfl⟩
  | cons t ts ih =>
    intro g
    rw [runIn_cons]
    exact ih _

theorem runWorkers_eq_runIn (g : Globals) :
    ∀ n, runWorkers g n = runIn g (List.range n) := by
  intro n
  induction n with
  | zero => rfl
  | succ n ih =>
    rw [List.range_succ]
    unfold runIn
    rw [List.foldl_append]
    simp only [runWorkers, List.foldl_cons, List.foldl_nil]
    rw [ih]
    rfl

theorem run_frame :
    ∀ (sched : List Nat) (s s1 : Sys), run s sched = some s1 →
      s1.g.A = s.g.A ∧ s1.g.C = s.g.C := by
  intro sched
  induction sched with
  | nil =>
    intro s s1 h
    cases h
    exact ⟨rfl, rfl⟩
  | cons t ts ih =>
    intro s s1 h
    simp only [run] at h
    cases hst : step s t with
    | none => rw [hst] at h; cases h
    | some s2 =>
      rw [hst] at h
      obtain ⟨a1, a2, _⟩ := step_frame s s2 t hst
      obtain ⟨b1, b2⟩ := ih s2 s1 h
      exact ⟨b1.trans a1, b2.trans a2⟩

theorem matmul_other (g : Globals) (t m : Nat)
    (hm : ∀ c, c ∈ (matmul g t).cells → idx c.1 c.2 g.z ≠ m) :
    (matmul g t).out m = g.C m := by
  obtain ⟨cs, _, hrun⟩ := matmul_shape g t
  obtain ⟨hout, hcells⟩ := hrun g rfl rfl rfl rfl
  rw [hcells] at hm
  rw [hout]
  exact writeCells_other g.A g.B g.y g.z m cs g.C hm

/-- C12. Inputs are read-only.  A worker of `matmul` changes the global `C`
only, and there only the cells of its pass; so `A` and `B` are the same after
any sequence of workers and on return from `MatMul`.  A step of a worker of
`matsquare` leaves `A` (and `C`) unchanged, changes `B` only at the cells of
its pass, and changes `sTimes` only by the decrement of worker 0; so `A` is the
same after any schedule.  `MatMul` of mm.c leaves every buffer other than the
one behind `C` unchanged, in particular those behind `A` and `B` when they are
not `C`. -/
theorem inputs_read_only :
    (∀ (g : Globals) (t : Nat),
      (runIn g [t]).A = g.A ∧ (runIn g [t]).B = g.B ∧
      ∀ m, (∀ c, c ∈ (matmul g t).cells → idx c.1 c.2 g.z ≠ m) → (runIn g [t]).C m = g.C m) ∧
    (∀ (g : Globals) (order : List Nat), (runIn g order).A = g.A ∧ (runIn g order).B = g.B) ∧
    (∀ g g1 : Globals, MatMul g = some g1 → g1.A = g.A ∧ g1.B = g.B) ∧
    (∀ (s s1 : Sys) (t : Nat), step s t = some s1 →
      s1.g.A = s.g.A ∧ s1.g.C = s.g.C ∧
      (s1.g.sTimes = s.g.sTimes ∨ (t = 0 ∧ s1.g.sTimes = s.g.sTimes - 1)) ∧
      ∀ m, (∀ c, c ∈ (matsquare_pass s.g t).cells → idx c.1 c.2 s.g.x ≠ m) →
        s1.g.B m = s.g.B m) ∧
    (∀ (s s1 : Sys) (sched : List Nat), run s sched = some s1 → s1.g.A = s.g.A) ∧
    (∀ (g g1 : Globals) (sched : List Nat), MatSquare g sched = some g1 → g1.A = g.A) ∧
    (∀ (h : mm.Heap) (A B C Q x y z : Nat), A ≠ C → B ≠ C → Q ≠ C →
      (mm.MatMul h A B C x y z).buf Q = h.buf Q) := by
  refine ⟨?_, ?_, ?_, ?_, ?_, ?_, ?_⟩
  · intro g t
    refine ⟨rfl, rfl, ?_⟩
    intro m hm
    exact matmul_other g t m hm
  · intro g order
    exact ⟨(runIn_frame order g).1, (runIn_frame order g).2.1⟩
  · intro g g1 h
    unfold MatMul at h
    cases hs : MatMul_setup g with
    | none => rw [hs] at h; cases h
    | some g0 =>
      rw [hs] at h
      have hg0 : g0.A = g.A ∧ g0.B = g.B := by
        unfold MatMul_setup at hs
        dsimp only at hs
        by_cases h0 : (if g.num_threads > g.x * g.z then g.x * g.z else g.num_threads) = 0
        · rw [if_pos h0] at hs; cases hs
        · rw [if_neg h0] at hs; cases hs; exact ⟨rfl, rfl⟩
      simp only [Option.map] at h
      cases h
      rw [runWorkers_eq_runIn]
      exact ⟨(runIn_frame _ g0).1.trans hg0.1, (runIn_frame _ g0).2.1.trans hg0.2⟩
  · intro s s1 t h
    obtain ⟨a1, a2, _, _, _, _, _, a8, a9⟩ := step_frame s s1 t h
    exact ⟨a1, a2, a8, a9⟩
  · intro s s1 sched h
    exact (run_frame sched s s1 h).1
  · intro g g1 sched h
    unfold MatSquare at h
    cases hs : MatSquare_setup g with
    | none => rw [hs] at h; cases h
    | some s0 =>
      rw [hs] at h
      have hg0 : s0.g.A = g.A := by
        unfold MatSquare_setup at hs
        dsimp only at hs
        by_cases h0 : (if g.num_threads > g.x * g.x then g.x * g.x else g.num_threads) = 0
        · rw [if_pos h0] at hs; cases hs
        · rw [if_neg h0] at hs; cases hs; rfl
      simp only [Option.bind] at h
      cases hr : run s0 sched with
      | none => rw [hr] at h; cases h
      | some s1 =>
        rw [hr] at h
        simp only at h
        split at h
        · cases h
          exact (run_frame sched s0 s1 hr).1.trans hg0
        · cases h
  · intro h A B C Q x y z hA hB hQ
    exact mm.MatMul_other h A B C Q x y z hA hB hQ

end ptmm

/-! ## The product engine under any order of its workers -/

namespace ptmm

theorem matmul_cells_congr (g g1 : Globals) (t : Nat) (hx : g1.x = g.x) (hz : g1.z = g.z)
    (hp : g1.part = g.part) (hn : g1.num_threads = g.num_threads) :
    (matmul g1 t).cells = (matmul g t).cells := by
  obtain ⟨cs, _, hrun⟩ := matmul_shape g t
  rw [(hrun g1 hx hz hp hn).2, (hrun g rfl rfl rfl rfl).2]

theorem matmul_hit (g : Globals) (t m : Nat)
    (hm : ∃ c, c ∈ (matmul g t).cells ∧ idx c.1 c.2 g.z = m) :
    (matmul g t).out m = tval g.A g.B g.y g.z (m / g.z) (m % g.z) := by
  obtain ⟨cs, hb, hrun⟩ := matmul_shape g t
  obtain ⟨hout, hcells⟩ := hrun g rfl rfl rfl rfl
  rw [hcells] at hm
  rw [hout]
  exact writeCells_mem g.A g.B g.y g.z m cs g.C (fun c hc => (hb c hc).2) hm

/-- The result of running workers in a given order: an index that is a cell of
the pass of one of them holds the inner product of its row and column, every
other index its initial value. -/
theorem runIn_C :
    ∀ (order : List Nat) (g : Globals) (m : Nat),
      ((∃ t, t ∈ order ∧ ∃ c, c ∈ (matmul g t).cells ∧ idx c.1 c.2 g.z = m) →
        (runIn g order).C m = tval g.A g.B g.y g.z (m / g.z) (m % g.z)) ∧
      ((∀ t, t ∈ order → ∀ c, c ∈ (matmul g t).cells → idx c.1 c.2 g.z ≠ m) →
        (runIn g order).C m = g.C m) := by
  intro order
  induction order with
  | nil =>
    intro g m
    refine ⟨?_, fun _ => rfl⟩
    rintro ⟨t, ht, _⟩
    exact absurd ht (List.not_mem_nil t)
  | cons t ts ih =>
    intro g m
    rw [runIn_cons]
    have hc : ∀ t1, (matmul { g with C := (matmul g t).out } t1).cells = (matmul g t1).cells :=
      fun t1 => matmul_cells_congr g _ t1 rfl rfl rfl rfl
    obtain ⟨ih1, ih2⟩ := ih { g with C := (matmul g t).out } m
    simp only [hc] at ih1 ih2
    constructor
    · intro h
      by_cases hts : ∃ t1, t1 ∈ ts ∧ ∃ c, c ∈ (matmul g t1).cells ∧ idx c.1 c.2 g.z = m
      · exact ih1 hts
      · have hnot : ∀ t1, t1 ∈ ts → ∀ c, c ∈ (matmul g t1).cells → idx c.1 c.2 g.z ≠ m :=
          fun t1 ht1 c hc1 hm => hts ⟨t1, ht1, c, hc1, hm⟩
        rw [ih2 hnot]
        obtain ⟨t1, ht1, c, hc1, hm⟩ := h
        rcases List.mem_cons.mp ht1 with rfl | ht1
        · exact matmul_hit g t1 m ⟨c, hc1, hm⟩
        · exact absurd hm (hnot t1 ht1 c hc1)
    · intro h
      rw [ih2 (fun t1 ht1 => h t1 (List.mem_cons_of_mem _ ht1))]
      exact matmul_other g t m (h t (List.mem_cons_self _ _))

theorem runIn_perm (g : Globals) (p q : List Nat) (hpq : p.Perm q) :
    (runIn g p).C = (runIn g q).C := by
  funext m
  obtain ⟨p1, p2⟩ := runIn_C p g m
  obtain ⟨q1, q2⟩ := runIn_C q g m
  by_cases h : ∃ t, t ∈ p ∧ ∃ c, c ∈ (matmul g t).cells ∧ idx c.1 c.2 g.z = m
  · have hq : ∃ t, t ∈ q ∧ ∃ c, c ∈ (matmul g t).cells ∧ idx c.1 c.2 g.z = m := by
      obtain ⟨t, ht, hc⟩ := h
      exact ⟨t, hpq.mem_iff.mp ht, hc⟩
    rw [p1 h, q1 hq]
  · have hp : ∀ t, t ∈ p → ∀ c, c ∈ (matmul g t).cells → idx c.1 c.2 g.z ≠ m :=
      fun t ht c hc hm => h ⟨t, ht, c, hc, hm⟩
    have hq : ∀ t, t ∈ q → ∀ c, c ∈ (matmul g t).cells → idx c.1 c.2 g.z ≠ m :=
      fun t ht c hc hm => h ⟨t, hpq.mem_iff.mpr ht, c, hc, hm⟩
    rw [p2 hp, q2 hq]

/-- C18. Schedule independence of the product engine: for at least one result
cell and at least one requested thread, the set-up of `MatMul` succeeds, and
running its workers `0, ..., n - 1` one after the other in any permutation of
the worker ids gives the same `C` as running them in the order of their
creation, which is the `C` that `MatMul` returns; `A` and `B` are the same as
well. -/
theorem schedule_independence (g : Globals) (hx : 1 ≤ g.x) (hz : 1 ≤ g.z)
    (hn : 1 ≤ g.num_threads) :
    ∃ g0 g1, MatMul_setup g = some g0 ∧ MatMul g = some g1 ∧
      ∀ order : List Nat, order.Perm (List.range g0.num_threads) →
        (runIn g0 order).C = g1.C ∧ (runIn g0 order).A = g1.A ∧
        (runIn g0 order).B = g1.B := by
  have ht : 1 ≤ g.x * g.z := Nat.mul_pos hx hz
  obtain ⟨g0, hs⟩ : ∃ g0, MatMul_setup g = some g0 := ⟨_, MatMul_setup_eq g ht hn⟩
  refine ⟨g0, runWorkers g0 g0.num_threads, hs, ?_, ?_⟩
  · unfold MatMul
    rw [hs]
    rfl
  · intro order hperm
    rw [runWorkers_eq_runIn]
    refine ⟨runIn_perm g0 order _ hperm, ?_, ?_⟩
    · rw [(runIn_frame order g0).1, (runIn_frame _ g0).1]
    · rw [(runIn_frame order g0).2.1, (runIn_frame _ g0).2.1]

theorem schedule_independence_witness :
    (1 ≤ ex23.x ∧ 1 ≤ ex23.z ∧ 1 ≤ ex23.num_threads) ∧
    ∃ g0 g1, MatMul_setup ex23 = some g0 ∧ MatMul ex23 = some g1 ∧
      ∀ order : List Nat, order.Perm (List.range g0.num_threads) →
        (runIn g0 order).C = g1.C ∧ (runIn g0 order).A = g1.A ∧
        (runIn g0 order).B = g1.B :=
  ⟨⟨by decide, by decide, by decide⟩,
    schedule_independence ex23 (by decide) (by decide) (by decide)⟩

end ptmm

/-! ## The serial product and the single worker -/

namespace mm

/-- C11. Serial reference product: when `C` is neither `A` nor `B`, then for
all `x`, `y`, `z` (zero included) and every initial content of the buffers,
after `MatMul (A, B, C, x, y, z)` of mm.c every cell `(i, j)` with `i < x` and
`j < z` has `C[i*z + j] = Σ_{k < y} A[i*y + k] * B[k*z + j]`, for the operands
as they were at the call. -/
theorem MatMul_product (h : Heap) (A B C x y z : Nat) (hA : A ≠ C) (hB : B ≠ C) :
    ∀ i j, i < x → j < z →
      (MatMul h A B C x y z).buf C (idx i j z) =
        ∑ k in Finset.range y, h.buf A (idx i k y) * h.buf B (idx k j z) := by
  intro i j hi hj
  rw [MatMul_buf h A B C x y z hA hB]
  simp only [if_true]
  rw [if_pos (idx_lt x z i j hi hj), (idx_div_mod z i j hj).1, (idx_div_mod z i j hj).2,
    tval_eq_sum]

theorem MatMul_product_witness :
    ((0 : Nat) ≠ 2 ∧ (1 : Nat) ≠ 2) ∧
    ∀ i j, i < 2 → j < 2 →
      (MatMul heap232 0 1 2 2 3 2).buf 2 (idx i j 2) =
        ∑ k in Finset.range 3, heap232.buf 0 (idx i k 3) * heap232.buf 1 (idx k j 2) :=
  ⟨⟨by decide, by decide⟩, MatMul_product heap232 0 1 2 2 3 2 (by decide) (by decide)⟩

end mm

namespace ptmm

theorem mem_cellsFrom_zero (x z i j : Nat) (hi : i < x) (hj : j < z) :
    (i, j) ∈ cellsFrom z 0 (x * z) := by
  unfold cellsFrom
  rw [List.mem_map]
  refine ⟨idx i j z, ?_, ?_⟩
  · rw [List.mem_range'_1]
    exact ⟨Nat.zero_le _, by rw [Nat.zero_add]; exact idx_lt x z i j hi hj⟩
  · rw [(idx_div_mod z i j hj).1, (idx_div_mod z i j hj).2]

/-- C17. Single-worker product equals the serial reference: for `x ≥ 1`,
`z ≥ 1` (square or not), any `y` and `num_threads == 1`, `MatMul` of pt-mm.c
runs the one worker 0 with `part = x * z`; its pass stores the cells with
linear indices `0, ..., x*z - 1`, which are all cells `(i, j)` of `C`, and the
`C` it returns is the buffer that `MatMul (A, B, C, x, y, z)` of mm.c leaves
behind `C`, for the same operands and the same initial `C`. -/
theorem single_worker_serial (g : Globals) (h : mm.Heap) (a b c : Nat) (hac : a ≠ c)
    (hbc : b ≠ c) (hA : h.buf a = g.A) (hB : h.buf b = g.B) (hC : h.buf c = g.C)
    (hx : 1 ≤ g.x) (hz : 1 ≤ g.z) (hn : g.num_threads = 1) :
    ∃ g0 g1, MatMul_setup g = some g0 ∧ MatMul g = some g1 ∧
      g0.num_threads = 1 ∧ g0.part = g.x * g.z ∧
      g1 = { g0 with C := (matmul g0 0).out } ∧
      (matmul g0 0).cells = cellsFrom g.z 0 (g.x * g.z) ∧
      (∀ i j, i < g.x → j < g.z → (i, j) ∈ (matmul g0 0).cells) ∧
      g1.C = (mm.MatMul h a b c g.x g.y g.z).buf c := by
  have ht : 1 ≤ g.x * g.z := Nat.mul_pos hx hz
  have hm : min g.num_threads (g.x * g.z) = 1 := by rw [hn]; omega
  have hs := MatMul_setup_eq g ht (by omega)
  rw [hm, Nat.div_one] at hs
  have hpass : matmul { g with num_threads := 1, part := g.x * g.z } 0 =
      { out := writeCells g.A g.B g.y g.z (cellsFrom g.z 0 (g.x * g.z)) g.C
        en := 0
        cells := cellsFrom g.z 0 (g.x * g.z)
        hit := true } := by
    have h1 := rowLoop_from g.A g.B g.x g.y g.z 0 (g.x * g.z) g.C ht (by omega)
    simp only [Nat.zero_div, Nat.zero_mod, Nat.sub_zero] at h1
    unfold matmul matmul_en matmul_sn
    simp only [Nat.zero_mul, Nat.zero_div, Nat.zero_mod, Nat.sub_zero, Nat.zero_add, if_true,
      Nat.cast_zero, sub_zero]
    exact h1
  refine ⟨_, _, hs, ?_, rfl, rfl, rfl, ?_, ?_, ?_⟩
  · unfold MatMul
    rw [hs]
    rfl
  · rw [hpass]
  · intro i j hi hj
    rw [hpass]
    exact mem_cellsFrom_zero g.x g.z i j hi hj
  · show (matmul { g with num_threads := 1, part := g.x * g.z } 0).out = _
    rw [hpass, mm.MatMul_buf h a b c g.x g.y g.z hac hbc]
    simp only [if_true]
    funext m
    rw [writeCells_cellsFrom_apply, hA, hB, hC]
    by_cases hlt : m < g.x * g.z
    · rw [if_pos (by omega), if_pos hlt]
    · rw [if_neg (by omega), if_neg hlt]

theorem single_worker_serial_witness :
    ((0 : Nat) ≠ 2 ∧ (1 : Nat) ≠ 2 ∧ mm.heap232.buf 0 = ex232.A ∧ mm.heap232.buf 1 = ex232.B ∧
      mm.heap232.buf 2 = ex232.C ∧ 1 ≤ ex232.x ∧ 1 ≤ ex232.z ∧ ex232.num_threads = 1) ∧
    ∃ g0 g1, MatMul_setup ex232 = some g0 ∧ MatMul ex232 = some g1 ∧
      g0.num_threads = 1 ∧ g0.part = ex232.x * ex232.z ∧
      g1 = { g0 with C := (matmul g0 0).out } ∧
      (matmul g0 0).cells = cellsFrom ex232.z 0 (ex232.x * ex232.z) ∧
      (∀ i j, i < ex232.x → j < ex232.z → (i, j) ∈ (matmul g0 0).cells) ∧
      g1.C = (mm.MatMul mm.heap232 0 1 2 ex232.x ex232.y ex232.z).buf 2 :=
  ⟨⟨by decide, by decide, rfl, rfl, rfl, by decide, by decide, rfl⟩,
    single_worker_serial ex232 mm.heap232 0 1 2 (by decide) (by decide) rfl rfl rfl
      (by decide) (by decide) rfl⟩

end ptmm

/-! ## Every pass of the power engine ends at the barrier -/

namespace ptmm

/-- C16. Every power worker reaches the barrier in every round: for `x ≥ 1`
and a worker count between `1` and `x * x`, the set-up of `MatSquare` succeeds
and every worker `i` has a countdown `en_i = c ≥ 1` such that, whatever `A`,
`B` and `sTimes` are (that is, in every round), its pass stores exactly the `c`
cells with row-major indices `sn_i, ..., sn_i + c - 1`, leaves the loops
through the `en == 0` branch with `en = 0`, and the step of the worker from
`entry` ends in the barrier (blocked, or released by its own arrival), never
at the trailing `pthread_exit`. -/
theorem pass_reaches_barrier (g : Globals) (hx : 1 ≤ g.x) (hn : 1 ≤ g.num_threads)
    (hle : g.num_threads ≤ g.x * g.x) :
    ∃ s0, MatSquare_setup g = some s0 ∧
      ∀ i, i < s0.g.num_threads →
        ∃ c : Nat, 1 ≤ c ∧ matsquare_sn s0.g i + c ≤ g.x * g.x ∧
          ∀ g1 : Globals, g1.x = s0.g.x → g1.part = s0.g.part →
            g1.num_threads = s0.g.num_threads →
            matsquare_en g1 i = (c : Int) ∧
            (matsquare_pass g1 i).hit = true ∧
            (matsquare_pass g1 i).en = 0 ∧
            (matsquare_pass g1 i).cells = cellsFrom g.x (matsquare_sn g1 i) c ∧
            (matsquare_pass g1 i).cells.length = c ∧
            ∀ s : Sys, s.g = g1 → (s.threads i).pc = Pc.entry →
              ∃ s1, step s i = some s1 ∧
                ((s1.threads i).pc = Pc.blocked ∨ (s1.threads i).pc = Pc.released) := by
  obtain ⟨s0, hset, h0x, h0n, _, hR0⟩ := setup_atRound g hx hn hle
  have wf := hR0.wf
  refine ⟨s0, hset, ?_⟩
  intro i hi
  obtain ⟨e1, e2, e3⟩ := matsquare_en_eq s0.g i hi wf.fits
  refine ⟨sqCount s0.g i, e2 wf.part_pos, by rw [← h0x]; exact e3, ?_⟩
  intro g1 h1x h1p h1n
  have hi1 : i < g1.num_threads := by rw [h1n]; exact hi
  have hp1 : 1 ≤ g1.part := by rw [h1p]; exact wf.part_pos
  have hf1 : g1.num_threads * g1.part ≤ g1.x * g1.x := by
    rw [h1n, h1p, h1x]; exact wf.fits
  have hsq : sqCount g1 i = sqCount s0.g i := by
    unfold sqCount; rw [h1n, h1x, h1p]
  have hpass := matsquare_pass_eq g1 i hi1 hp1 hf1
  rw [hsq, h1p, h1x, h0x] at hpass
  refine ⟨?_, ?_, ?_, ?_, ?_, ?_⟩
  · rw [(matsquare_en_eq g1 i hi1 hf1).1, hsq]
  · rw [hpass]
  · rw [hpass]
  · rw [hpass]; unfold matsquare_sn; rw [h1p]
  · rw [hpass]; unfold cellsFrom; rw [List.length_map, List.length_range']
  · intro s hs hpc
    obtain ⟨s1, hstep, _, _, _, _, _, _, _, _, _, _, _, hrel, hblk⟩ :=
      step_entry s i (by rw [hs]; exact hi1) hpc (by rw [hs]; exact hp1)
        (by rw [hs]; exact hf1)
    refine ⟨s1, hstep, ?_⟩
    by_cases ha : s.arrived + 1 = s.count
    · exact Or.inr (hrel ha).2.1
    · exact Or.inl (hblk ha).2.1

theorem pass_reaches_barrier_witness :
    (1 ≤ ex22.x ∧ 1 ≤ ex22.num_threads ∧ ex22.num_threads ≤ ex22.x * ex22.x) ∧
    ∃ s0, MatSquare_setup ex22 = some s0 ∧
      ∀ i, i < s0.g.num_threads →
        ∃ c : Nat, 1 ≤ c ∧ matsquare_sn s0.g i + c ≤ ex22.x * ex22.x ∧
          ∀ g1 : Globals, g1.x = s0.g.x → g1.part = s0.g.part →
            g1.num_threads = s0.g.num_threads →
            matsquare_en g1 i = (c : Int) ∧
            (matsquare_pass g1 i).hit = true ∧
            (matsquare_pass g1 i).en = 0 ∧
            (matsquare_pass g1 i).cells = cellsFrom ex22.x (matsquare_sn g1 i) c ∧
            (matsquare_pass g1 i).cells.length = c ∧
            ∀ s : Sys, s.g = g1 → (s.threads i).pc = Pc.entry →
              ∃ s1, step s i = some s1 ∧
                ((s1.threads i).pc = Pc.blocked ∨ (s1.threads i).pc = Pc.released) :=
  ⟨⟨by decide, by decide, by decide⟩,
    pass_reaches_barrier ex22 (by decide) (by decide) (by decide)⟩

end ptmm

/-! ## The barrier count, the worker count and the wall-clock time -/

namespace ptmm

/-- C13 (code defect). On a 1-by-1 matrix with the default `num_threads = 8`,
`MatSquare` initialises the barrier for 8 participants and then creates only
1 worker (the clamped count).  Worker 0 runs its pass and blocks in the
barrier with 1 of 8 arrivals; no worker can take a further step, and under no
schedule does `MatSquare` return. -/
theorem barrier_count_before_clamp :
    ∃ s0 s1, MatSquare_setup ex11d = some s0 ∧ s0.count = 8 ∧ s0.g.num_threads = 1 ∧
      run s0 [0] = some s1 ∧ (s1.threads 0).pc = Pc.blocked ∧ s1.arrived = 1 ∧
      (∀ t, step s1 t = none) ∧
      ∀ sched, MatSquare ex11d sched = none := by
  have hs1 : ∀ s0 s1 : Sys, MatSquare_setup ex11d = some s0 → run s0 [0] = some s1 →
      ∀ t, step s1 t = none := by
    intro s0 s1 h0 h1 t
    cases h0
    cases h1
    match t with
    | 0 => rfl
    | t + 1 =>
      unfold step
      rw [if_neg]
      show ¬ t + 1 < 1
      omega
  have hs0 : ∀ s0 : Sys, MatSquare_setup ex11d = some s0 → ∀ t, step s0 (t + 1) = none := by
    intro s0 h0 t
    cases h0
    unfold step
    rw [if_neg]
    show ¬ t + 1 < 1
    omega
  refine ⟨_, _, rfl, by decide, by decide, rfl, by decide, by decide, hs1 _ _ rfl rfl, ?_⟩
  intro sched
  unfold MatSquare
  obtain ⟨s0, h0⟩ : ∃ s0, MatSquare_setup ex11d = some s0 := ⟨_, rfl⟩
  rw [h0]
  simp only [Option.bind]
  match sched with
  | [] =>
    cases h0
    rfl
  | (t + 1) :: ts =>
    simp only [run, hs0 s0 h0 t, Option.bind]
  | 0 :: ts =>
    obtain ⟨s1, h1⟩ : ∃ s1, run s0 [0] = some s1 := by
      cases h0
      exact ⟨_, rfl⟩
    have hst : step s0 0 = some s1 := by
      simp only [run] at h1
      cases hq : step s0 0 with
      | none => rw [hq] at h1; cases h1
      | some s2 =>
        rw [hq] at h1
        simp only [Option.bind] at h1
        exact h1
    simp only [run, hst, Option.bind]
    match ts with
    | [] =>
      cases h0
      cases h1
      rfl
    | t2 :: ts2 =>
      simp only [run, hs1 s0 s1 h0 h1 t2, Option.bind]

/-- C14 (code defect). The option check of pt-mm.c accepts `-x 2 -y 2 -z 2 -n 0`
and `-s 1 -x 2 -n 0` and calls the engine with `num_threads = 0`; both engines
then divide by zero in `part = total / num_threads`.  It also accepts a
negative value such as `-n -3`, for which the thread-id array has a negative
length.  Without `-n` the value is the default `8`. -/
theorem num_threads_not_validated :
    (∃ v, main [Opt.x 2, Opt.y 2, Opt.z 2, Opt.n 0] = Outcome.product v ∧
      v.num_threads = 0 ∧
      ∀ A B C, (engineGlobals v A B C).bind MatMul = none) ∧
    (∃ v, main [Opt.s 1, Opt.x 2, Opt.n 0] = Outcome.power v ∧
      v.num_threads = 0 ∧
      ∀ A B C, (engineGlobals v A B C).bind MatSquare_setup = none) ∧
    (∃ v, main [Opt.x 2, Opt.y 2, Opt.z 2, Opt.n (-3)] = Outcome.product v ∧
      v.num_threads = -3 ∧
      ∀ A B C, engineGlobals v A B C = none) ∧
    (∃ v, main [Opt.x 2, Opt.y 2, Opt.z 2] = Outcome.product v ∧ v.num_threads = 8) := by
  refine ⟨⟨_, rfl, rfl, ?_⟩, ⟨_, rfl, rfl, ?_⟩, ⟨_, rfl, rfl, ?_⟩, ⟨_, rfl, rfl⟩⟩
  · intro A B C; rfl
  · intro A B C; rfl
  · intro A B C; rfl

/-- C19 (code defect). Line 356 calls `timersub(&start, &end, &result)`, which
is `start - end`: for `start = 10 s` and `end = 12 s` the printed clock time is
`-2`, not the elapsed `2`; for `start = 10.5 s` and `end = 10.6 s` it is `-1`,
not `0`.  In general, for `end` not before `start` (microseconds inside
`[0, 1000000)`), the printed value is never positive, and it is negative
whenever `end` is later than `start`. -/
theorem clock_time_operands_swapped :
    clock_time { tv_sec := 10, tv_usec := 0 } { tv_sec := 12, tv_usec := 0 } = -2 ∧
    clock_time { tv_sec := 10, tv_usec := 500000 } { tv_sec := 10, tv_usec := 600000 } = -1 ∧
    (∀ start stop : Timeval,
      0 ≤ start.tv_usec → start.tv_usec < 1000000 → 0 ≤ stop.tv_usec → stop.tv_usec < 1000000 →
      (start.tv_sec < stop.tv_sec ∨
        (start.tv_sec = stop.tv_sec ∧ start.tv_usec ≤ stop.tv_usec)) →
      clock_time start stop ≤ 0 ∧
      ((start.tv_sec ≠ stop.tv_sec ∨ start.tv_usec ≠ stop.tv_usec) →
        clock_time start stop < 0)) := by
  refine ⟨by decide, by decide, ?_⟩
  intro start stop h1 h2 h3 h4 h5
  unfold clock_time timersub
  dsimp only
  split <;> constructor <;> (try intro h6) <;> dsimp only <;> omega

end ptmm
